import Mathlib

/-!
Verification development for `src/net/scripts.js` (spfjs): a shallow
embedding of the script-loading state machine.

The embedding models the shared mutable environment (document, pubsub
channels, browser cache, the hidden iframe used by `prefetch`) as an
explicit state record `Env`.  Callbacks are either opaque user callbacks
(invoking one appends an event to a log) or the `getNextScript`
continuation closure of `spf.net.scripts.execute`.  The mutually
recursive callback machinery (`load` / `eval` / the onload completion
wiring / pubsub publish) is expressed as a fuel-indexed interpreter
`run` over an action type `Act`; every branch is a direct translation of
the corresponding source function (annotated in comments).

External collaborator modules that are not part of the core source
(`spf.string.hashCode`, `spf.pubsub`, `spf.dom`, and the browser's
network/cache behaviour) are modelled from the spec; the corresponding
definitions carry a `Modelled from the spec:` doc comment.
-/

/-- A parsed queue item, `{url, text, name}` as pushed by
`spf.net.scripts.parse` (scripts.js line 333). -/
structure Item where
  url : String
  text : String
  name : String
deriving DecidableEq

/-- The container `spf.net.scripts.ParseResult` (scripts.js lines 345-352):
original markup, stripped markup, ordered queue of items. -/
structure ParseResult where
  original : String
  parsed : String
  queue : List Item
deriving DecidableEq

/-- A callback value.  `user n` is an opaque caller-supplied callback
(identified by a token; invoking it is observable as a log event).
`next q i d` is the `getNextScript` continuation closure of
`spf.net.scripts.execute` (scripts.js lines 273-289): when invoked it
dispatches queue item `i` of `q` (the shared mutable `index` variable of
the closure is represented by the index carried in the value), with
`d` the optional `opt_callback` token of `execute`. -/
inductive Cb where
  | user (n : Nat)
  | next (q : List Item) (i : Nat) (d : Option Nat)
deriving DecidableEq

/-- Observable events, recorded in order in the environment log:
a user callback ran, a network fetch for a URL was issued, or an inline
script text was evaluated. -/
inductive Ev where
  | cbRun (n : Nat)
  | fetch (url : String)
  | evalText (s : String)
deriving DecidableEq

/-- A script element created by `spf.net.scripts.load_` (scripts.js lines
133-163).  `eid` is the element's object identity (creation index);
`id`/`cls` are the element id and className set at creation; `loaded` is
the `spf.dom.dataset` "loaded" marker; `attached` records whether the
element is still in the document; `toRemove` is the list of element
identities captured as `scriptElsToRemove` by the onload closure of
`spf.net.scripts.load` (scripts.js line 105). -/
structure Elem where
  eid : Nat
  id : String
  cls : String
  loaded : Bool
  attached : Bool
  toRemove : List Nat
deriving DecidableEq

/-- The shared mutable environment: all script elements ever created (in
creation order, detached ones included, since the onload closure keeps a
reference to its element), the next element identity, the pubsub
channels (channel key to callbacks in registration order), the browser
cache of already-requested URLs, the content document of the hidden
prefetch iframe (element ids), and the observable event log. -/
structure Env where
  elems : List Elem
  nextEid : Nat
  pubsub : List (String × List Cb)
  cache : List String
  iframeDoc : Option (List String)
  log : List Ev
deriving DecidableEq

/-- The initial environment: empty document, no channels, cold cache,
no prefetch iframe. -/
def env0 : Env := ⟨[], 0, [], [], none, []⟩

/-- Modelled from the spec: `spf.string.hashCode` (not under src/) is a
deterministic string hash; identical locators yield identical
identifiers and distinct locators yield distinct identifiers (spec §3
Resource Identifier, §6 "Deterministic string hashing").  Modelled as
the identity function, which is deterministic and injective. -/
def hashCode (s : String) : String := s

/-- The resource identifier: `spf.net.scripts.ID_PREFIX` (the string
"js-", scripts.js line 359) concatenated with the hash of the locator
(scripts.js line 83). -/
def idOf (url : String) : String := "js-" ++ hashCode url

/-- Modelled from the spec: channel lookup of the notification facility
`spf.pubsub` (not under src/); returns the callbacks registered on a
channel, in registration order (spec §6). -/
def chanGet : List (String × List Cb) → String → List Cb
  | [], _ => []
  | (k, l) :: r, i => if k = i then l else chanGet r i

/-- Modelled from the spec: `spf.pubsub.subscribe` appends a callback to
a channel, preserving registration order (spec §6). -/
def chanAdd : List (String × List Cb) → String → Cb → List (String × List Cb)
  | [], i, c => [(i, [c])]
  | (k, l) :: r, i, c => if k = i then (k, l ++ [c]) :: r else (k, l) :: chanAdd r i c

/-- Modelled from the spec: `spf.pubsub.clear` removes a channel and all
its registered callbacks (spec §6). -/
def chanDel : List (String × List Cb) → String → List (String × List Cb)
  | [], _ => []
  | (k, l) :: r, i => if k = i then chanDel r i else (k, l) :: chanDel r i

/-- The callbacks currently registered on channel `i`. -/
def channel (e : Env) (i : String) : List Cb := chanGet e.pubsub i

/-- `spf.pubsub.subscribe(id, cb)` as used at scripts.js line 97. -/
def subscribe (i : String) (c : Cb) (e : Env) : Env :=
  { e with pubsub := chanAdd e.pubsub i c }

/-- `spf.pubsub.clear(id)` as used at scripts.js lines 116 and 191. -/
def clearChan (i : String) (e : Env) : Env :=
  { e with pubsub := chanDel e.pubsub i }

/-- `document.getElementById` over the primary document restricted to the
dynamically created script elements: the first attached element in
document order whose id matches.  `spf.net.scripts.load_` inserts every
element before the first child of the head (scripts.js line 161), so
document order is reverse creation order and the first match in document
order is the last match in creation order. -/
def docFind : List Elem → String → Option Elem
  | [], _ => none
  | el :: r, i =>
    match docFind r i with
    | some x => some x
    | none => if el.attached && el.id == i then some el else none

/-- `document.getElementById(id)` (scripts.js lines 85, 176, 206). -/
def getElementById (e : Env) (i : String) : Option Elem := docFind e.elems i

/-- Modelled from the spec: `spf.dom.query('script.' + cls)` (not under
src/) returns the attached script elements whose class is `cls`, in
document order (newest first, as elements are prepended). -/
def queryL (l : List Elem) (cls : String) : List Elem :=
  (l.filter (fun el => el.attached && el.cls == cls)).reverse

/-- `spf.dom.query('script.' + cls)` as used at scripts.js line 105. -/
def query (e : Env) (cls : String) : List Elem := queryL e.elems cls

/-- Dereference an element object by its identity (the source closures
hold direct object references; elements keep existing after removal from
the document). -/
def lookupElem (e : Env) (a : Nat) : Option Elem :=
  e.elems.find? (fun el => el.eid == a)

/-- Pointwise update of the element with identity `a` (object mutation
through a held reference). -/
def updateElem (g : Elem → Elem) (a : Nat) (e : Env) : Env :=
  { e with elems := e.elems.map (fun el => if el.eid = a then g el else el) }

/-- `spf.dom.dataset.set(el, 'loaded', 'true')` (scripts.js line 109). -/
def setLoaded (a : Nat) (e : Env) : Env :=
  updateElem (fun el => { el with loaded := true }) a e

/-- `el.parentNode.removeChild(el)` (scripts.js line 192): detach the
element from the document. -/
def detach (a : Nat) (e : Env) : Env :=
  updateElem (fun el => { el with attached := false }) a e

/-- Append an observable event to the log. -/
def pushLog (ev : Ev) (e : Env) : Env := { e with log := e.log ++ [ev] }

/-- Modelled from the spec: the browser network/cache behaviour (spec
§4.5).  Setting a script element's `src` or an object element's `data`
issues a request for the URL; the browser cache absorbs requests for
already-fetched URLs, so a network fetch is observable (and the URL
becomes cached) only on a cache miss. -/
def requestUrl (url : String) (e : Env) : Env :=
  if url ∈ e.cache then e
  else { e with cache := url :: e.cache, log := e.log ++ [Ev.fetch url] }

/-- `spf.net.scripts.load_(url, id, cls, fn)` (scripts.js lines 133-163)
minus the onload wiring, which is the `.handle` action of the
interpreter: create the script element (carrying the captured
`scriptElsToRemove` identities for its onload closure), insert it into
the document, and set `src` (issuing the request). -/
def createEl (url i cls : String) (rem : List Nat) (e : Env) : Env :=
  requestUrl url
    { e with
      elems := e.elems ++ [⟨e.nextEid, i, cls, false, true, rem⟩],
      nextEid := e.nextEid + 1 }

/-- `spf.net.scripts.unload_(scriptEls)` (scripts.js lines 189-194): for
each element, clear the pubsub channel keyed by its id, then remove it
from the document. -/
def unloadEls (eids : List Nat) (e : Env) : Env :=
  eids.foldl
    (fun acc a =>
      match lookupElem acc a with
      | some el => detach a (clearChan el.id acc)
      | none => acc) e

/-- `if (opt_callback) { opt_callback(); }` for an optional user
callback token (scripts.js lines 266-268, 285-287). -/
def doneCb (d : Option Nat) (e : Env) : Env :=
  match d with
  | some n => pushLog (Ev.cbRun n) e
  | none => e

/-- The actions of the interpreter: invoke a callback value, run
`spf.net.scripts.load`, run `spf.net.scripts.eval`, fire the completion
wiring of an element (its onload closure, scripts.js lines 107-118), or
deliver a snapshot of publish callbacks in order. -/
inductive Act where
  | invoke (c : Cb)
  | load (url : String) (cb : Option Cb) (name : String)
  | evalS (text : String) (cb : Option Cb)
  | handle (a : Nat)
  | publishList (cbs : List Cb)

/-- The fuel-indexed interpreter.  Out of fuel, it leaves the
environment unchanged; every theorem supplies enough fuel for the runs
it performs.  Branches:

* `.invoke (.user n)`: run an opaque caller callback (observable event).
* `.invoke (.next q i d)`: the body of `getNextScript` (scripts.js lines
  273-289) dispatching item `i`: a url item goes to `load` with the
  advanced continuation, a text item to `eval`, an empty item advances
  immediately; past the end, `execute`'s `opt_callback` runs.
* `.load url cb name`: `spf.net.scripts.load` (scripts.js lines 82-120):
  already loaded — run the callback and return; otherwise register the
  callback; currently loading — return; otherwise capture the same-name
  elements to remove and create the element (`load_`).
* `.evalS text cb`: `spf.net.scripts.eval` (scripts.js lines 38-54):
  evaluate the text, then run the callback.
* `.handle a`: the onload closure built at scripts.js lines 107-118 and
  fired by the environment's completion signaling (lines 137-152): if
  the element's loaded marker is unset, set it, unload the captured
  superseded elements, publish the id's channel, then clear it.
* `.publishList cbs`: modelled from the spec: `spf.pubsub.publish`
  delivers the registered callbacks in registration order (spec §6). -/
def run : Nat → Act → Env → Env
  | 0, _, e => e
  | f + 1, a, e =>
    match a with
    | .invoke (.user n) => pushLog (Ev.cbRun n) e
    | .invoke (.next q i d) =>
      match q.get? i with
      | some it =>
        if it.url ≠ "" then
          run f (.load it.url (some (.next q (i + 1) d)) it.name) e
        else if it.text ≠ "" then
          run f (.evalS it.text (some (.next q (i + 1) d))) e
        else
          run f (.invoke (.next q (i + 1) d)) e
      | none => doneCb d e
    | .load url cb name =>
      match getElementById e (idOf url) with
      | some el =>
        if el.loaded then
          match cb with
          | some c => run f (.invoke c) e
          | none => e
        else
          match cb with
          | some c => subscribe (idOf url) c e
          | none => e
      | none =>
        match cb with
        | some c =>
          createEl url (idOf url) name
            (if name ≠ "" then (query (subscribe (idOf url) c e) name).map (fun el => el.eid) else [])
            (subscribe (idOf url) c e)
        | none =>
          createEl url (idOf url) name
            (if name ≠ "" then (query e name).map (fun el => el.eid) else []) e
    | .evalS text cb =>
      match cb with
      | some c => run f (.invoke c) (pushLog (Ev.evalText text) e)
      | none => pushLog (Ev.evalText text) e
    | .handle a =>
      match lookupElem e a with
      | none => e
      | some el =>
        if el.loaded then e
        else
          clearChan el.id
            (run f
              (.publishList (channel (unloadEls el.toRemove (setLoaded a e)) el.id))
              (unloadEls el.toRemove (setLoaded a e)))
    | .publishList [] => e
    | .publishList (c :: r) => run f (.publishList r) (run f (.invoke c) e)

theorem run_zero (a : Act) (e : Env) : run 0 a e = e := rfl

theorem run_user (f : Nat) (n : Nat) (e : Env) :
    run (f + 1) (.invoke (.user n)) e = pushLog (Ev.cbRun n) e := rfl

theorem run_next (f : Nat) (q : List Item) (i : Nat) (d : Option Nat) (e : Env) :
    run (f + 1) (.invoke (.next q i d)) e =
      match q.get? i with
      | some it =>
        if it.url ≠ "" then
          run f (.load it.url (some (.next q (i + 1) d)) it.name) e
        else if it.text ≠ "" then
          run f (.evalS it.text (some (.next q (i + 1) d))) e
        else
          run f (.invoke (.next q (i + 1) d)) e
      | none => doneCb d e := rfl

theorem run_load (f : Nat) (url : String) (cb : Option Cb) (name : String) (e : Env) :
    run (f + 1) (.load url cb name) e =
      match getElementById e (idOf url) with
      | some el =>
        if el.loaded then
          match cb with
          | some c => run f (.invoke c) e
          | none => e
        else
          match cb with
          | some c => subscribe (idOf url) c e
          | none => e
      | none =>
        match cb with
        | some c =>
          createEl url (idOf url) name
            (if name ≠ "" then (query (subscribe (idOf url) c e) name).map (fun el => el.eid) else [])
            (subscribe (idOf url) c e)
        | none =>
          createEl url (idOf url) name
            (if name ≠ "" then (query e name).map (fun el => el.eid) else []) e := rfl

theorem run_evalS (f : Nat) (text : String) (cb : Option Cb) (e : Env) :
    run (f + 1) (.evalS text cb) e =
      match cb with
      | some c => run f (.invoke c) (pushLog (Ev.evalText text) e)
      | none => pushLog (Ev.evalText text) e := rfl

theorem run_handle (f : Nat) (a : Nat) (e : Env) :
    run (f + 1) (.handle a) e =
      match lookupElem e a with
      | none => e
      | some el =>
        if el.loaded then e
        else
          clearChan el.id
            (run f
              (.publishList (channel (unloadEls el.toRemove (setLoaded a e)) el.id))
              (unloadEls el.toRemove (setLoaded a e))) := rfl

theorem run_publish_nil (f : Nat) (e : Env) : run (f + 1) (.publishList []) e = e := rfl

theorem run_publish_cons (f : Nat) (c : Cb) (r : List Cb) (e : Env) :
    run (f + 1) (.publishList (c :: r)) e =
      run f (.publishList r) (run f (.invoke c) e) := rfl

/-- `spf.net.scripts.load(url, opt_callback, opt_name)` (scripts.js
lines 82-120), as an interpreter entry point. -/
def load (fuel : Nat) (url : String) (cb : Option Cb) (name : String) (e : Env) : Env :=
  run fuel (.load url cb name) e

/-- The element returned by `spf.net.scripts.load`: the existing element
when one with the derived id is in the document (already loaded or
loading, scripts.js lines 93, 101), otherwise the freshly created
element, whose identity is the pre-state's next element identity
(scripts.js line 119). -/
def loadRet (url : String) (e : Env) : Nat :=
  match getElementById e (idOf url) with
  | some el => el.eid
  | none => e.nextEid

/-- `spf.net.scripts.eval(text, opt_callback)` (scripts.js lines 38-54),
as an interpreter entry point. -/
def evalScript (fuel : Nat) (text : String) (cb : Option Cb) (e : Env) : Env :=
  run fuel (.evalS text cb) e

/-- `spf.net.scripts.execute(result, opt_callback)` (scripts.js lines
264-291): empty queue — run the callback immediately; otherwise start
the `getNextScript` cursor at item 0. -/
def execute (fuel : Nat) (res : ParseResult) (d : Option Nat) (e : Env) : Env :=
  if res.queue.length ≤ 0 then doneCb d e
  else run fuel (.invoke (.next res.queue 0 d)) e

/-- `spf.net.scripts.unload(url)` (scripts.js lines 174-180): look the
element up by the derived id; if present, `unload_` it. -/
def unload (url : String) (e : Env) : Env :=
  match getElementById e (idOf url) with
  | none => e
  | some el => unloadEls [el.eid] e

/-- The deferred body of `spf.net.scripts.prefetch`:
`spf.net.scripts.prefetch_(url, id, doc)` (scripts.js lines 238-253)
running inside the iframe's content document: create the placeholder
element carrying the id and issue the request for the URL. -/
def prefetchUnder (i url : String) (e : Env) : Env :=
  requestUrl url { e with iframeDoc := some ((e.iframeDoc.getD []) ++ [i]) }

/-- `spf.net.scripts.prefetch(url)` (scripts.js lines 204-226): no-op if
the primary document already has an element with the derived id; create
the hidden iframe lazily; no-op if the iframe's document already has the
element; otherwise run `prefetch_` inside the iframe.  The `setTimeout`
deferral of `prefetch_` (scripts.js line 223) is modelled as having run
to completion: the claims about `prefetch` concern its post-tick
states. -/
def prefetch (url : String) (e : Env) : Env :=
  match getElementById e (idOf url) with
  | some _ => e
  | none =>
    match e.iframeDoc with
    | none => prefetchUnder (idOf url) url { e with iframeDoc := some [] }
    | some doc =>
      if idOf url ∈ doc then e
      else prefetchUnder (idOf url) url e

/-! ### Parsing (`spf.net.scripts.parse`, scripts.js lines 321-338) -/

/-- Character comparison, optionally case-insensitive (the script tag
regular expression `SCRIPT_TAG_REGEXP` carries the `i` flag, scripts.js
line 370; the attribute expressions do not). -/
def chEq (ci : Bool) (a b : Char) : Bool :=
  if ci then a.toLower == b.toLower else a == b

/-- Does `pat` occur as a prefix of `s`? -/
def headMatch (ci : Bool) : List Char → List Char → Bool
  | [], _ => true
  | _ :: _, [] => false
  | p :: ps, c :: cs => chEq ci p c && headMatch ci ps cs

/-- Index of the first occurrence of `pat` in `s` (leftmost match, as a
regular expression scan finds it). -/
def findSub (ci : Bool) (pat : List Char) : List Char → Option Nat
  | [] => none
  | c :: cs =>
    if headMatch ci pat (c :: cs) then some 0
    else (findSub ci pat cs).map (fun n => n + 1)

/-- Index of the last `"` character in `l`. -/
def lastQuote : List Char → Option Nat
  | [] => none
  | c :: cs =>
    match lastQuote cs with
    | some j => some (j + 1)
    | none => if c = '"' then some 0 else none

/-- Capture of an attribute expression of the form `key="([\S]+)"`
(`SRC_ATTR_REGEXP` and `CLASS_ATTR_REGEXP`, scripts.js lines 380, 390)
applied to the attribute text: after the literal `key="`, the greedy
one-or-more run of non-whitespace characters backtracks to the last `"`
inside the run; no match yields the empty string (scripts.js lines
330, 332 use `''` when the match fails).  (The regular expression would
retry later occurrences of the literal on a failed backtrack; such
inputs do not occur for attribute text produced by well-formed tags.) -/
def attrCap (pat : List Char) (attr : List Char) : String :=
  match findSub false pat attr with
  | none => ""
  | some i =>
    match lastQuote ((attr.drop (i + pat.length)).takeWhile (fun c => !c.isWhitespace)) with
    | none => ""
    | some j =>
      if 1 ≤ j then
        String.mk (((attr.drop (i + pat.length)).takeWhile (fun c => !c.isWhitespace)).take j)
      else ""

/-- The scan of `SCRIPT_TAG_REGEXP` (scripts.js lines 327-335, 369-370):
repeatedly find the leftmost `<script`, the lazily-shortest attribute
text up to the first `>`, and the lazily-shortest body text up to the
first `</script>`; push a queue item `{url, text, name}` from the `src`
and `class` attribute captures and drop the matched construct from the
stripped output.  When the construct cannot complete (`>` or
`</script>` missing), no further match is possible and the remainder is
passed through untouched.  The fuel argument bounds the recursion (each
match consumes at least one character). -/
def scanScripts : Nat → List Char → List Item × List Char
  | 0, s => ([], s)
  | f + 1, s =>
    match findSub true ("<script".toList) s with
    | none => ([], s)
    | some i =>
      match findSub true (">".toList) (s.drop (i + 7)) with
      | none => ([], s)
      | some j =>
        match findSub true ("</script>".toList) ((s.drop (i + 7)).drop (j + 1)) with
        | none => ([], s)
        | some k =>
          let res := scanScripts f (((s.drop (i + 7)).drop (j + 1)).drop (k + 9))
          (⟨attrCap ("src=\"".toList) ((s.drop (i + 7)).take j),
            String.mk (((s.drop (i + 7)).drop (j + 1)).take k),
            attrCap ("class=\"".toList) ((s.drop (i + 7)).take j)⟩ :: res.1,
           s.take i ++ res.2)

/-- `spf.net.scripts.parse(html)` (scripts.js lines 321-338): falsy
(empty) input yields the fresh empty ParseResult without scanning;
otherwise record the original markup, scan out the script constructs in
document order, and record the stripped markup. -/
def parse (html : String) : ParseResult :=
  if html = "" then ⟨"", "", []⟩
  else
    ⟨html, String.mk (scanScripts (html.length + 1) html.toList).2,
      (scanScripts (html.length + 1) html.toList).1⟩

/-! ### Basic lemmas about the environment primitives -/

@[simp] theorem subscribe_elems (i : String) (c : Cb) (e : Env) :
    (subscribe i c e).elems = e.elems := rfl

@[simp] theorem subscribe_log (i : String) (c : Cb) (e : Env) :
    (subscribe i c e).log = e.log := rfl

@[simp] theorem subscribe_nextEid (i : String) (c : Cb) (e : Env) :
    (subscribe i c e).nextEid = e.nextEid := rfl

@[simp] theorem subscribe_cache (i : String) (c : Cb) (e : Env) :
    (subscribe i c e).cache = e.cache := rfl

@[simp] theorem subscribe_iframeDoc (i : String) (c : Cb) (e : Env) :
    (subscribe i c e).iframeDoc = e.iframeDoc := rfl

@[simp] theorem clearChan_elems (i : String) (e : Env) :
    (clearChan i e).elems = e.elems := rfl

@[simp] theorem clearChan_log (i : String) (e : Env) :
    (clearChan i e).log = e.log := rfl

@[simp] theorem clearChan_nextEid (i : String) (e : Env) :
    (clearChan i e).nextEid = e.nextEid := rfl

@[simp] theorem clearChan_cache (i : String) (e : Env) :
    (clearChan i e).cache = e.cache := rfl

@[simp] theorem clearChan_iframeDoc (i : String) (e : Env) :
    (clearChan i e).iframeDoc = e.iframeDoc := rfl

@[simp] theorem pushLog_elems (ev : Ev) (e : Env) : (pushLog ev e).elems = e.elems := rfl

@[simp] theorem pushLog_pubsub (ev : Ev) (e : Env) : (pushLog ev e).pubsub = e.pubsub := rfl

@[simp] theorem pushLog_nextEid (ev : Ev) (e : Env) : (pushLog ev e).nextEid = e.nextEid := rfl

@[simp] theorem pushLog_cache (ev : Ev) (e : Env) : (pushLog ev e).cache = e.cache := rfl

@[simp] theorem pushLog_iframeDoc (ev : Ev) (e : Env) :
    (pushLog ev e).iframeDoc = e.iframeDoc := rfl

@[simp] theorem pushLog_log (ev : Ev) (e : Env) : (pushLog ev e).log = e.log ++ [ev] := rfl

@[simp] theorem updateElem_pubsub (g : Elem → Elem) (a : Nat) (e : Env) :
    (updateElem g a e).pubsub = e.pubsub := rfl

@[simp] theorem updateElem_log (g : Elem → Elem) (a : Nat) (e : Env) :
    (updateElem g a e).log = e.log := rfl

@[simp] theorem updateElem_nextEid (g : Elem → Elem) (a : Nat) (e : Env) :
    (updateElem g a e).nextEid = e.nextEid := rfl

@[simp] theorem updateElem_cache (g : Elem → Elem) (a : Nat) (e : Env) :
    (updateElem g a e).cache = e.cache := rfl

@[simp] theorem updateElem_iframeDoc (g : Elem → Elem) (a : Nat) (e : Env) :
    (updateElem g a e).iframeDoc = e.iframeDoc := rfl

theorem requestUrl_elems (u : String) (e : Env) : (requestUrl u e).elems = e.elems := by
  unfold requestUrl; split <;> rfl

theorem requestUrl_nextEid (u : String) (e : Env) : (requestUrl u e).nextEid = e.nextEid := by
  unfold requestUrl; split <;> rfl

theorem requestUrl_pubsub (u : String) (e : Env) : (requestUrl u e).pubsub = e.pubsub := by
  unfold requestUrl; split <;> rfl

theorem requestUrl_iframeDoc (u : String) (e : Env) :
    (requestUrl u e).iframeDoc = e.iframeDoc := by
  unfold requestUrl; split <;> rfl

theorem requestUrl_of_mem (u : String) (e : Env) (h : u ∈ e.cache) :
    requestUrl u e = e := by
  unfold requestUrl; simp [h]

theorem requestUrl_of_not_mem (u : String) (e : Env) (h : u ∉ e.cache) :
    requestUrl u e = { e with cache := u :: e.cache, log := e.log ++ [Ev.fetch u] } := by
  unfold requestUrl; simp [h]

theorem mem_cache_requestUrl (u : String) (e : Env) : u ∈ (requestUrl u e).cache := by
  unfold requestUrl; split
  · assumption
  · exact List.mem_cons_self _ _

/-! ### Channel lemmas -/

theorem chanGet_chanAdd_self (ps : List (String × List Cb)) (i : String) (c : Cb) :
    chanGet (chanAdd ps i c) i = chanGet ps i ++ [c] := by
  induction ps with
  | nil => simp [chanGet, chanAdd]
  | cons p r ih =>
    obtain ⟨k, l⟩ := p
    by_cases h : k = i <;> simp [chanGet, chanAdd, h, ih]

theorem chanGet_chanAdd_ne (ps : List (String × List Cb)) (i j : String) (c : Cb)
    (h : j ≠ i) : chanGet (chanAdd ps i c) j = chanGet ps j := by
  induction ps with
  | nil => simp [chanGet, chanAdd, Ne.symm h]
  | cons p r ih =>
    obtain ⟨k, l⟩ := p
    by_cases hk : k = i
    · subst hk; simp [chanGet, chanAdd, Ne.symm h]
    · by_cases hj : k = j
      · subst hj; simp [chanGet, chanAdd, hk, h]
      · simp [chanGet, chanAdd, hk, hj, ih]

theorem chanGet_chanDel_self (ps : List (String × List Cb)) (i : String) :
    chanGet (chanDel ps i) i = [] := by
  induction ps with
  | nil => simp [chanGet, chanDel]
  | cons p r ih =>
    obtain ⟨k, l⟩ := p
    by_cases h : k = i <;> simp [chanGet, chanDel, h, ih]

theorem chanGet_chanDel_ne (ps : List (String × List Cb)) (i j : String) (h : j ≠ i) :
    chanGet (chanDel ps i) j = chanGet ps j := by
  induction ps with
  | nil => simp [chanDel]
  | cons p r ih =>
    obtain ⟨k, l⟩ := p
    by_cases hk : k = i
    · subst hk; simp [chanGet, chanDel, Ne.symm h, ih]
    · by_cases hj : k = j
      · subst hj; simp [chanGet, chanDel, hk, h]
      · simp [chanGet, chanDel, hk, hj, ih]

theorem chanGet_chanDel_nil (ps : List (String × List Cb)) (i j : String)
    (h : chanGet ps j = []) : chanGet (chanDel ps i) j = [] := by
  by_cases hj : j = i
  · subst hj; exact chanGet_chanDel_self ps j
  · rw [chanGet_chanDel_ne ps i j hj]; exact h

theorem channel_subscribe_self (i : String) (c : Cb) (e : Env) :
    channel (subscribe i c e) i = channel e i ++ [c] :=
  chanGet_chanAdd_self e.pubsub i c

theorem channel_subscribe_ne (i j : String) (c : Cb) (e : Env) (h : j ≠ i) :
    channel (subscribe i c e) j = channel e j :=
  chanGet_chanAdd_ne e.pubsub i j c h

theorem channel_clearChan_self (i : String) (e : Env) : channel (clearChan i e) i = [] :=
  chanGet_chanDel_self e.pubsub i

theorem channel_clearChan_ne (i j : String) (e : Env) (h : j ≠ i) :
    channel (clearChan i e) j = channel e j :=
  chanGet_chanDel_ne e.pubsub i j h

theorem channel_updateElem (g : Elem → Elem) (a : Nat) (e : Env) (i : String) :
    channel (updateElem g a e) i = channel e i := rfl

theorem channel_pushLog (ev : Ev) (e : Env) (i : String) :
    channel (pushLog ev e) i = channel e i := rfl

theorem channel_requestUrl (u : String) (e : Env) (i : String) :
    channel (requestUrl u e) i = channel e i := by
  unfold channel; rw [requestUrl_pubsub]

/-! ### Document lookup lemmas -/

theorem docFind_eq_some {l : List Elem} {i : String} {el : Elem}
    (h : docFind l i = some el) : el ∈ l ∧ el.attached = true ∧ el.id = i := by
  induction l with
  | nil => exact absurd h (by simp [docFind])
  | cons x r ih =>
    rcases hr : docFind r i with - | y
    · simp only [docFind, hr] at h
      by_cases hx : (x.attached && x.id == i) = true
      · rw [if_pos hx] at h
        cases h
        simp only [Bool.and_eq_true, beq_iff_eq] at hx
        exact ⟨List.mem_cons_self _ _, hx.1, hx.2⟩
      · rw [if_neg hx] at h; cases h
    · simp only [docFind, hr] at h
      cases h
      obtain ⟨hm, ha, hi⟩ := ih hr
      exact ⟨List.mem_cons_of_mem _ hm, ha, hi⟩

theorem docFind_eq_none {l : List Elem} {i : String} (h : docFind l i = none) :
    ∀ el ∈ l, el.attached = true → el.id ≠ i := by
  induction l with
  | nil => simp
  | cons x r ih =>
    rcases hr : docFind r i with - | y
    · simp only [docFind, hr] at h
      intro el hel ha hi
      rcases List.mem_cons.mp hel with rfl | hm
      · rw [ha, hi] at h; simp at h
      · exact ih hr el hm ha hi
    · simp only [docFind, hr] at h
      exact Option.noConfusion h

theorem docFind_none_iff (l : List Elem) (i : String) :
    docFind l i = none ↔ ∀ el ∈ l, ¬(el.attached = true ∧ el.id = i) := by
  constructor
  · intro h el hm hc
    exact docFind_eq_none h el hm hc.1 hc.2
  · intro h
    induction l with
    | nil => rfl
    | cons x r ih =>
      rw [docFind, ih (fun el hm => h el (List.mem_cons_of_mem _ hm))]
      have hx := h x (List.mem_cons_self _ _)
      rcases hax : x.attached with - | -
      · simp [hax]
      · have : x.id ≠ i := fun hxi => hx ⟨hax, hxi⟩
        simp [hax, this]

theorem docFind_append_single (l : List Elem) (el : Elem) (i : String) :
    docFind (l ++ [el]) i =
      if el.attached && el.id == i then some el else docFind l i := by
  induction l with
  | nil =>
    by_cases h : (el.attached && el.id == i) = true
    · simp only [List.nil_append, docFind, if_pos h]
    · simp only [List.nil_append, docFind, if_neg h]
  | cons x r ih =>
    simp only [List.cons_append, docFind, List.append_eq, ih]
    by_cases h : (el.attached && el.id == i) = true
    · simp [h]
    · simp [h]

theorem docFind_map_none (l : List Elem) (i : String) (u : Elem → Elem)
    (hid : ∀ el, (u el).id = el.id)
    (hat : ∀ el, (u el).attached = true → el.attached = true)
    (h : docFind l i = none) : docFind (l.map u) i = none := by
  rw [docFind_none_iff] at h ⊢
  intro el hel hc
  obtain ⟨x, hx, rfl⟩ := List.mem_map.mp hel
  exact h x hx ⟨hat x hc.1, (hid x) ▸ hc.2⟩

/-! ### Element reference lemmas -/

theorem lookupElem_eq_some {e : Env} {a : Nat} {el : Elem}
    (h : lookupElem e a = some el) : el ∈ e.elems ∧ el.eid = a :=
  ⟨List.mem_of_find?_eq_some h, by simpa using List.find?_some h⟩

theorem lookupElem_eq_none {e : Env} {a : Nat} (h : lookupElem e a = none) :
    ∀ el ∈ e.elems, el.eid ≠ a := by
  intro el hel heq
  have := List.find?_eq_none.mp h el hel
  simp [heq] at this

theorem find?_eid_map (l : List Elem) (u : Elem → Elem)
    (hu : ∀ el, (u el).eid = el.eid) (a : Nat) :
    (l.map u).find? (fun el => el.eid == a) =
      (l.find? (fun el => el.eid == a)).map u := by
  induction l with
  | nil => rfl
  | cons x r ih =>
    simp only [List.map_cons, List.find?]
    rw [hu x]
    split <;> simp [ih]

theorem find?_eid_append (l₁ l₂ : List Elem) (a : Nat) :
    (l₁ ++ l₂).find? (fun el => el.eid == a) =
      ((l₁.find? (fun el => el.eid == a)).or (l₂.find? (fun el => el.eid == a))) :=
  List.find?_append

theorem lookupElem_updateElem (g : Elem → Elem) (hg : ∀ el, (g el).eid = el.eid)
    (a b : Nat) (e : Env) :
    lookupElem (updateElem g a e) b =
      (lookupElem e b).map (fun el => if el.eid = a then g el else el) := by
  unfold lookupElem updateElem
  exact find?_eid_map e.elems _ (fun el => by by_cases h : el.eid = a <;> simp [h, hg]) b

theorem lookupElem_setLoaded (a b : Nat) (e : Env) :
    lookupElem (setLoaded a e) b =
      (lookupElem e b).map
        (fun el => if el.eid = a then { el with loaded := true } else el) :=
  lookupElem_updateElem (fun el => { el with loaded := true }) (fun _ => rfl) a b e

theorem lookupElem_detach (a b : Nat) (e : Env) :
    lookupElem (detach a e) b =
      (lookupElem e b).map
        (fun el => if el.eid = a then { el with attached := false } else el) :=
  lookupElem_updateElem (fun el => { el with attached := false }) (fun _ => rfl) a b e

theorem lookupElem_clearChan (i : String) (e : Env) (a : Nat) :
    lookupElem (clearChan i e) a = lookupElem e a := rfl

theorem lookupElem_pushLog (ev : Ev) (e : Env) (a : Nat) :
    lookupElem (pushLog ev e) a = lookupElem e a := rfl

theorem lookupElem_subscribe (i : String) (c : Cb) (e : Env) (a : Nat) :
    lookupElem (subscribe i c e) a = lookupElem e a := rfl

theorem lookupElem_requestUrl (u : String) (e : Env) (a : Nat) :
    lookupElem (requestUrl u e) a = lookupElem e a := by
  unfold lookupElem; rw [requestUrl_elems]

theorem lookupElem_append_fresh (e : Env) (el : Elem)
    (h : ∀ x ∈ e.elems, x.eid ≠ el.eid) :
    lookupElem { e with elems := e.elems ++ [el] } el.eid = some el := by
  unfold lookupElem
  simp only [find?_eid_append]
  have h1 : e.elems.find? (fun x => x.eid == el.eid) = none :=
    List.find?_eq_none.mpr (fun x hx => by simp [h x hx])
  simp [h1, List.find?]

/-! ### `unloadEls` characterization -/

/-- The effect of `unload_` on the element list: the elements whose
identity is in the removed set are detached, everything else is kept
unchanged. -/
def detachIf (l : List Nat) (el : Elem) : Elem :=
  if el.eid ∈ l then { el with attached := false } else el

theorem detachIf_eid (l : List Nat) (el : Elem) : (detachIf l el).eid = el.eid := by
  unfold detachIf; split <;> rfl

theorem detachIf_id (l : List Nat) (el : Elem) : (detachIf l el).id = el.id := by
  unfold detachIf; split <;> rfl

theorem detachIf_cls (l : List Nat) (el : Elem) : (detachIf l el).cls = el.cls := by
  unfold detachIf; split <;> rfl

theorem detachIf_loaded (l : List Nat) (el : Elem) :
    (detachIf l el).loaded = el.loaded := by
  unfold detachIf; split <;> rfl

theorem detachIf_attached_imp (l : List Nat) (el : Elem)
    (h : (detachIf l el).attached = true) : el.attached = true := by
  unfold detachIf at h; split at h
  · cases h
  · exact h

theorem unloadEls_cons (a : Nat) (r : List Nat) (e : Env) :
    unloadEls (a :: r) e =
      unloadEls r
        (match lookupElem e a with
         | some el => detach a (clearChan el.id e)
         | none => e) := rfl

theorem unloadEls_elems (l : List Nat) (e : Env) :
    (unloadEls l e).elems = e.elems.map (detachIf l) := by
  induction l generalizing e with
  | nil =>
    show e.elems = e.elems.map (detachIf [])
    rw [show e.elems.map (detachIf []) = e.elems.map id from
        List.map_congr_left (fun x _ => by unfold detachIf; simp), List.map_id]
  | cons a r ih =>
    rcases hl : lookupElem e a with - | el
    · simp only [unloadEls_cons, hl, ih]
      exact List.map_congr_left fun x hx => by
        have hne : x.eid ≠ a := lookupElem_eq_none hl x hx
        unfold detachIf
        simp [hne]
    · simp only [unloadEls_cons, hl, ih]
      show (detach a (clearChan el.id e)).elems.map (detachIf r) = _
      unfold detach updateElem
      simp only [clearChan_elems, List.map_map]
      exact List.map_congr_left fun x _ => by
        unfold detachIf
        by_cases hxa : x.eid = a
        · simp [Function.comp, hxa]
        · by_cases hxr : x.eid ∈ r <;> simp [Function.comp, hxa, hxr]

theorem unloadEls_log (l : List Nat) (e : Env) : (unloadEls l e).log = e.log := by
  induction l generalizing e with
  | nil => rfl
  | cons a r ih =>
    rcases hl : lookupElem e a with - | el <;>
      simp only [unloadEls_cons, hl, ih] <;> rfl

theorem unloadEls_nextEid (l : List Nat) (e : Env) :
    (unloadEls l e).nextEid = e.nextEid := by
  induction l generalizing e with
  | nil => rfl
  | cons a r ih =>
    rcases hl : lookupElem e a with - | el <;>
      simp only [unloadEls_cons, hl, ih] <;> rfl

theorem unloadEls_cache (l : List Nat) (e : Env) : (unloadEls l e).cache = e.cache := by
  induction l generalizing e with
  | nil => rfl
  | cons a r ih =>
    rcases hl : lookupElem e a with - | el <;>
      simp only [unloadEls_cons, hl, ih] <;> rfl

theorem unloadEls_iframeDoc (l : List Nat) (e : Env) :
    (unloadEls l e).iframeDoc = e.iframeDoc := by
  induction l generalizing e with
  | nil => rfl
  | cons a r ih =>
    rcases hl : lookupElem e a with - | el <;>
      simp only [unloadEls_cons, hl, ih] <;> rfl

theorem lookupElem_unloadEls (l : List Nat) (e : Env) (b : Nat) :
    lookupElem (unloadEls l e) b = (lookupElem e b).map (detachIf l) := by
  unfold lookupElem
  rw [unloadEls_elems]
  exact find?_eid_map e.elems (detachIf l) (detachIf_eid l) b

theorem channel_unloadEls_nil (l : List Nat) (e : Env) (i : String)
    (h : channel e i = []) : channel (unloadEls l e) i = [] := by
  induction l generalizing e with
  | nil => exact h
  | cons a r ih =>
    rcases hl : lookupElem e a with - | el
    · simp only [unloadEls_cons, hl]
      exact ih e h
    · simp only [unloadEls_cons, hl]
      exact ih _ (chanGet_chanDel_nil e.pubsub el.id i h)

theorem channel_unloadEls_other (l : List Nat) (e : Env) (i : String)
    (h : ∀ a ∈ l, ∀ el, lookupElem e a = some el → el.id ≠ i) :
    channel (unloadEls l e) i = channel e i := by
  induction l generalizing e with
  | nil => rfl
  | cons a r ih =>
    rcases hl : lookupElem e a with - | el
    · simp only [unloadEls_cons, hl]
      exact ih e (fun a' ha' => h a' (List.mem_cons_of_mem _ ha'))
    · simp only [unloadEls_cons, hl]
      have hid : el.id ≠ i := h a (List.mem_cons_self _ _) el hl
      have step : channel (detach a (clearChan el.id e)) i = channel e i :=
        chanGet_chanDel_ne e.pubsub el.id i (Ne.symm hid)
      rw [ih _ ?_, step]
      intro a' ha' el' hel'
      rw [lookupElem_detach, lookupElem_clearChan] at hel'
      rcases hx : lookupElem e a' with - | x
      · rw [hx] at hel'; cases hel'
      · rw [hx] at hel'
        have hxi := h a' (List.mem_cons_of_mem _ ha') x hx
        rw [Option.map_some'] at hel'
        cases hel'
        split <;> exact hxi

/-! ### `createEl` lemmas -/

theorem createEl_elems (url i cls : String) (rem : List Nat) (e : Env) :
    (createEl url i cls rem e).elems =
      e.elems ++ [⟨e.nextEid, i, cls, false, true, rem⟩] := by
  unfold createEl
  rw [requestUrl_elems]

theorem createEl_nextEid (url i cls : String) (rem : List Nat) (e : Env) :
    (createEl url i cls rem e).nextEid = e.nextEid + 1 := by
  unfold createEl
  rw [requestUrl_nextEid]

theorem createEl_pubsub (url i cls : String) (rem : List Nat) (e : Env) :
    (createEl url i cls rem e).pubsub = e.pubsub := by
  unfold createEl
  rw [requestUrl_pubsub]

theorem createEl_iframeDoc (url i cls : String) (rem : List Nat) (e : Env) :
    (createEl url i cls rem e).iframeDoc = e.iframeDoc := by
  unfold createEl
  rw [requestUrl_iframeDoc]

theorem channel_createEl (url i cls : String) (rem : List Nat) (e : Env) (j : String) :
    channel (createEl url i cls rem e) j = channel e j := by
  unfold channel
  rw [createEl_pubsub]

theorem lookupElem_createEl (url i cls : String) (rem : List Nat) (e : Env) (b : Nat)
    (h : lookupElem e b = some el) : lookupElem (createEl url i cls rem e) b = some el := by
  unfold lookupElem at h ⊢
  rw [createEl_elems, List.find?_append, h]
  rfl

/-! ### Monotonicity: a loaded marker is never unset -/

/-- Once an element's loaded marker is set, no interpreter action unsets
it (the source only ever writes `'true'` into the marker, scripts.js
line 109, and removal does not touch it). -/
theorem run_loaded_stable :
    ∀ (f : Nat) (a : Act) (e : Env) (b : Nat) (el : Elem),
      lookupElem e b = some el → el.loaded = true →
      ∃ el', lookupElem (run f a e) b = some el' ∧ el'.loaded = true := by
  intro f
  induction f with
  | zero => exact fun a e b el h hl => ⟨el, h, hl⟩
  | succ f ih =>
    intro a e b el h hl
    match a with
    | .invoke (.user n) => exact ⟨el, h, hl⟩
    | .invoke (.next q i d) =>
      rw [run_next]
      rcases hq : q.get? i with - | it
      · rcases d with - | n
        · exact ⟨el, h, hl⟩
        · exact ⟨el, h, hl⟩
      · by_cases hu : it.url ≠ ""
        · simp only [hq, if_pos hu]
          exact ih _ _ b el h hl
        · by_cases ht : it.text ≠ ""
          · simp only [hq, if_neg hu, if_pos ht]
            exact ih _ _ b el h hl
          · simp only [hq, if_neg hu, if_neg ht]
            exact ih _ _ b el h hl
    | .load url cb name =>
      rw [run_load]
      rcases hg : getElementById e (idOf url) with - | x
      · rcases cb with - | c
        · refine ⟨el, ?_, hl⟩
          exact lookupElem_createEl _ _ _ _ _ _ h
        · refine ⟨el, ?_, hl⟩
          exact lookupElem_createEl _ _ _ _ _ _ h
      · by_cases hx : x.loaded = true
        · simp only [if_pos hx]
          rcases cb with - | c
          · exact ⟨el, h, hl⟩
          · exact ih _ _ b el h hl
        · simp only [if_neg hx]
          rcases cb with - | c
          · exact ⟨el, h, hl⟩
          · exact ⟨el, h, hl⟩
    | .evalS text cb =>
      rw [run_evalS]
      rcases cb with - | c
      · exact ⟨el, h, hl⟩
      · exact ih _ _ b el (by rw [lookupElem_pushLog]; exact h) hl
    | .handle a0 =>
      rw [run_handle]
      rcases ha : lookupElem e a0 with - | x
      · exact ⟨el, h, hl⟩
      · by_cases hx : x.loaded = true
        · simp only [if_pos hx]
          exact ⟨el, h, hl⟩
        · simp only [if_neg hx]
          have h1 : lookupElem (setLoaded a0 e) b =
              some (if el.eid = a0 then { el with loaded := true } else el) := by
            rw [lookupElem_setLoaded, h]; rfl
          have hl1 : (if el.eid = a0 then { el with loaded := true } else el).loaded = true := by
            split
            · rfl
            · exact hl
          have h2 := lookupElem_unloadEls x.toRemove (setLoaded a0 e) b
          rw [h1] at h2
          have hl2 : (detachIf x.toRemove
              (if el.eid = a0 then { el with loaded := true } else el)).loaded = true := by
            rw [detachIf_loaded]; exact hl1
          obtain ⟨el', h3, hl3⟩ := ih _ _ b _ h2 hl2
          exact ⟨el', by rw [lookupElem_clearChan]; exact h3, hl3⟩
    | .publishList [] => exact ⟨el, h, hl⟩
    | .publishList (c :: r) =>
      obtain ⟨el1, h1, hl1⟩ := ih (.invoke c) e b el h hl
      exact ih (.publishList r) _ b el1 h1 hl1

/-! ### Completion-event idempotence -/

theorem handle_noop_of_none (g : Nat) (a : Nat) (e : Env)
    (h : lookupElem e a = none) : run g (.handle a) e = e := by
  cases g with
  | zero => rfl
  | succ g => rw [run_handle, h]

theorem handle_noop_of_loaded (g : Nat) (a : Nat) (e : Env) (el : Elem)
    (h : lookupElem e a = some el) (hl : el.loaded = true) :
    run g (.handle a) e = e := by
  cases g with
  | zero => rfl
  | succ g => rw [run_handle, h]; simp [hl]

/-- After a completion event has been processed for element `a`, the
element's loaded marker is set (or the element never existed). -/
theorem handle_result_loaded (f : Nat) (a : Nat) (e : Env) (el : Elem)
    (h : lookupElem e a = some el) :
    ∃ el', lookupElem (run (f + 1) (.handle a) e) a = some el' ∧ el'.loaded = true := by
  by_cases hl : el.loaded = true
  · rw [handle_noop_of_loaded (f + 1) a e el h hl]
    exact ⟨el, h, hl⟩
  · rw [run_handle, h]
    simp only [if_neg hl]
    obtain ⟨ha, -⟩ := lookupElem_eq_some h
    have h1 : lookupElem (setLoaded a e) a = some { el with loaded := true } := by
      rw [lookupElem_setLoaded, h]
      simp [(lookupElem_eq_some h).2]
    have h2 := lookupElem_unloadEls el.toRemove (setLoaded a e) a
    rw [h1] at h2
    have hl2 : (detachIf el.toRemove { el with loaded := true }).loaded = true := by
      rw [detachIf_loaded]
    obtain ⟨el', h3, hl3⟩ := run_loaded_stable f _ _ a _ h2 hl2
    exact ⟨el', by rw [lookupElem_clearChan]; exact h3, hl3⟩

/-- C4: the completion wiring attached to a newly created element is
idempotent: after one completion event has been processed (with enough
fuel to run the body), any number of further completion events for the
same element leave the environment entirely unchanged — the completion
body (set loaded marker, remove superseded elements, publish the
channel, clear it) runs at most once per element. -/
theorem C4_completion_wiring_idempotent (f : Nat) (a : Nat) (e : Env) :
    ∀ (n g : Nat),
      (fun s => run g (.handle a) s)^[n] (run (f + 1) (.handle a) e) =
        run (f + 1) (.handle a) e := by
  have key : ∀ g, run g (.handle a) (run (f + 1) (.handle a) e) =
      run (f + 1) (.handle a) e := by
    intro g
    rcases h : lookupElem e a with - | el
    · rw [handle_noop_of_none (f + 1) a e h]
      exact handle_noop_of_none g a e h
    · obtain ⟨el', h1, hl1⟩ := handle_result_loaded f a e el h
      exact handle_noop_of_loaded g a _ el' h1 hl1
  intro n
  induction n with
  | zero => intro g; rfl
  | succ n ih =>
    intro g
    rw [Function.iterate_succ_apply', ih g, key g]

theorem run_publish_nil_any (g : Nat) (e : Env) : run g (.publishList []) e = e := by
  cases g <;> rfl

/-! ### Element-identity well-formedness -/

/-- Well-formedness of element identities: all identities in the
environment are distinct and below the creation counter.  This holds by
construction (identities are handed out by the counter) and is taken as
an explicit hypothesis where a theorem dereferences elements. -/
def eidsOk (e : Env) : Prop :=
  (e.elems.map (fun el => el.eid)).Nodup ∧ ∀ el ∈ e.elems, el.eid < e.nextEid

instance (e : Env) : Decidable (eidsOk e) := by
  unfold eidsOk; infer_instance

theorem find?_eid_of_mem_nodup (l : List Elem) (el : Elem) (hm : el ∈ l)
    (hn : (l.map (fun x => x.eid)).Nodup) :
    l.find? (fun x => x.eid == el.eid) = some el := by
  induction l with
  | nil => cases hm
  | cons x r ih =>
    rcases List.mem_cons.mp hm with rfl | hmr
    · simp [List.find?]
    · have hx : (x.eid == el.eid) = false := by
        simp only [beq_eq_false_iff_ne, ne_eq]
        intro hEq
        rw [List.map_cons, List.nodup_cons] at hn
        exact hn.1 (hEq ▸ List.mem_map_of_mem (fun y => y.eid) hmr)
      simp only [List.find?, hx]
      rw [List.map_cons, List.nodup_cons] at hn
      exact ih hmr hn.2

theorem lookupElem_of_mem_nodup (e : Env) (el : Elem) (hm : el ∈ e.elems)
    (hn : (e.elems.map (fun x => x.eid)).Nodup) : lookupElem e el.eid = some el :=
  find?_eid_of_mem_nodup e.elems el hm hn

/-! ### Claim C6: already-loaded request is synchronous and effect-free -/

/-- C6: when the element for a locator exists with its loaded marker
set, `load` invokes the supplied callback synchronously within the call
(the resulting environment is exactly the old one with the callback-run
event appended: no new element, no channel/cache/iframe mutation) and
returns the existing element. -/
theorem C6_already_loaded_synchronous (f : Nat) (url name : String) (n : Nat) (e : Env)
    (el : Elem) (h1 : getElementById e (idOf url) = some el) (h2 : el.loaded = true) :
    load (f + 2) url (some (Cb.user n)) name e = pushLog (Ev.cbRun n) e ∧
    loadRet url e = el.eid := by
  constructor
  · unfold load
    rw [run_load, h1]
    simp only [h2, if_true]
    rw [run_user]
  · unfold loadRet
    rw [h1]

/-- A loaded-element environment for the C6 witness: "u" was loaded and
its completion event processed. -/
def envLoadedU : Env := run 9 (.handle 0) (load 3 "u" none "" env0)

theorem C6_witness :
    load 5 "u" (some (Cb.user 3)) "" envLoadedU = pushLog (Ev.cbRun 3) envLoadedU ∧
    loadRet "u" envLoadedU = 0 :=
  C6_already_loaded_synchronous 3 "u" "" 3 envLoadedU ⟨0, "js-u", "", true, true, []⟩
    (by decide) (by decide)

/-! ### Claim C5: releasing a pending load abandons its callbacks -/

/-- C5: when the element for a locator is present with its loaded marker
unset (a pending load), `unload` clears the locator's pending callback
channel, detaches the element, leaves the log untouched — and if the
underlying fetch later completes and fires the completion wiring for the
detached element, no callback event is ever appended to the log. -/
theorem C5_release_pending (g : Nat) (url : String) (e : Env) (el : Elem)
    (h1 : getElementById e (idOf url) = some el) (h2 : el.loaded = false)
    (h3 : eidsOk e) :
    channel (unload url e) (idOf url) = [] ∧
    lookupElem (unload url e) el.eid = some { el with attached := false } ∧
    (unload url e).log = e.log ∧
    (run g (.handle el.eid) (unload url e)).log = e.log := by
  obtain ⟨hm, hat, hid⟩ := docFind_eq_some h1
  have hlook : lookupElem e el.eid = some el := lookupElem_of_mem_nodup e el hm h3.1
  have hu : unload url e = detach el.eid (clearChan el.id e) := by
    unfold unload
    rw [h1]
    show unloadEls [el.eid] e = _
    rw [unloadEls_cons, hlook]
    rfl
  have hchan : channel (unload url e) (idOf url) = [] := by
    rw [hu, ← hid]
    exact chanGet_chanDel_self e.pubsub el.id
  have hlook2 : lookupElem (unload url e) el.eid = some { el with attached := false } := by
    rw [hu, lookupElem_detach, lookupElem_clearChan, hlook]
    simp
  have hlog : (unload url e).log = e.log := by rw [hu]; rfl
  refine ⟨hchan, hlook2, hlog, ?_⟩
  cases g with
  | zero => exact hlog
  | succ g =>
    rw [run_handle, hlook2]
    have hnl : ¬(({ el with attached := false } : Elem).loaded = true) := by
      show ¬(el.loaded = true)
      rw [h2]
      exact Bool.false_ne_true
    simp only [if_neg hnl]
    have hpub : channel
        (unloadEls ({ el with attached := false } : Elem).toRemove
          (setLoaded el.eid (unload url e)))
        ({ el with attached := false } : Elem).id = [] := by
      apply channel_unloadEls_nil
      show chanGet (unload url e).pubsub el.id = []
      rw [hu]
      exact chanGet_chanDel_self e.pubsub el.id
    rw [hpub, run_publish_nil_any]
    rw [clearChan_log, unloadEls_log]
    show (unload url e).log = e.log
    exact hlog

/-- A pending-load environment for the C5 witness: a load of "u" with a
registered callback is in flight. -/
def envPendingU : Env := load 3 "u" (some (Cb.user 7)) "" env0

theorem C5_witness :
    channel (unload "u" envPendingU) (idOf "u") = [] ∧
    lookupElem (unload "u" envPendingU) 0 = some ⟨0, "js-u", "", false, false, []⟩ ∧
    (unload "u" envPendingU).log = envPendingU.log ∧
    (run 9 (.handle 0) (unload "u" envPendingU)).log = envPendingU.log :=
  C5_release_pending 9 "u" envPendingU ⟨0, "js-u", "", false, true, []⟩
    (by decide) (by decide) (by decide)

/-! ### Prefetch lemmas -/

theorem prefetchUnder_elems (i url : String) (x : Env) :
    (prefetchUnder i url x).elems = x.elems := by
  unfold prefetchUnder
  rw [requestUrl_elems]

theorem prefetchUnder_iframeDoc (i url : String) (x : Env) :
    (prefetchUnder i url x).iframeDoc = some ((x.iframeDoc.getD []) ++ [i]) := by
  unfold prefetchUnder
  rw [requestUrl_iframeDoc]

theorem mem_cache_prefetchUnder (i url : String) (x : Env) :
    url ∈ (prefetchUnder i url x).cache :=
  mem_cache_requestUrl url _

theorem getElementById_prefetchUnder (i url : String) (x : Env) (j : String) :
    getElementById (prefetchUnder i url x) j = getElementById x j := by
  unfold getElementById
  rw [prefetchUnder_elems]

/-! ### Claim C8: `prefetch` is idempotent -/

/-- C8: priming is idempotent.  A second `prefetch` of the same URL on
any environment is a complete no-op (so it creates no additional element
and issues no additional fetch); moreover on any environment that is
already primed for the URL — a live element with the derived id exists
in the primary document, or the fetch-only element exists in the iframe
document — `prefetch` leaves the environment entirely unchanged. -/
theorem C8_prefetch_idempotent (url : String) (e e' : Env) :
    prefetch url (prefetch url e) = prefetch url e ∧
    (((getElementById e' (idOf url)).isSome = true ∨
        (∃ doc, e'.iframeDoc = some doc ∧ idOf url ∈ doc)) →
      prefetch url e' = e') := by
  have noop : ∀ x : Env, ((getElementById x (idOf url)).isSome = true ∨
      (∃ doc, x.iframeDoc = some doc ∧ idOf url ∈ doc)) → prefetch url x = x := by
    intro x h
    rcases hg : getElementById x (idOf url) with - | el
    · rcases h with h | ⟨doc, hd, hmem⟩
      · rw [hg] at h; cases h
      · unfold prefetch
        rw [hg, hd]
        simp [hmem]
    · unfold prefetch
      rw [hg]
  refine ⟨?_, noop e'⟩
  rcases hg : getElementById e (idOf url) with - | el
  · rcases hifr : e.iframeDoc with - | doc
    · have he1 : prefetch url e = prefetchUnder (idOf url) url { e with iframeDoc := some [] } := by
        unfold prefetch
        rw [hg, hifr]
      rw [he1]
      apply noop
      right
      refine ⟨[] ++ [idOf url], ?_, by simp⟩
      rw [prefetchUnder_iframeDoc]
      rfl
    · by_cases hmem : idOf url ∈ doc
      · have he1 : prefetch url e = e := by
          unfold prefetch
          rw [hg, hifr]
          simp [hmem]
        rw [he1]
        exact he1
      · have he1 : prefetch url e = prefetchUnder (idOf url) url e := by
          unfold prefetch
          rw [hg, hifr]
          simp [hmem]
        rw [he1]
        apply noop
        right
        refine ⟨doc ++ [idOf url], ?_, by simp⟩
        rw [prefetchUnder_iframeDoc, hifr]
        rfl
  · have he1 : prefetch url e = e := by
      unfold prefetch
      rw [hg]
    rw [he1]
    exact he1

/-- An environment primed for "w" by a prior `prefetch`, for the C8
witness. -/
def envPrimedW : Env := prefetch "w" env0

theorem C8_witness : prefetch "w" envPrimedW = envPrimedW :=
  (C8_prefetch_idempotent "w" env0 envPrimedW).2
    (Or.inr ⟨["js-w"], by decide, by decide⟩)

/-! ### Claim C7: prime followed by request issues no second fetch -/

/-- Number of network fetches for a given URL in an event log. -/
def countFetch (u : String) : List Ev → Nat
  | [] => 0
  | ev :: r => (if ev = Ev.fetch u then 1 else 0) + countFetch u r

theorem countFetch_append (u : String) (l1 l2 : List Ev) :
    countFetch u (l1 ++ l2) = countFetch u l1 + countFetch u l2 := by
  induction l1 with
  | nil => simp [countFetch]
  | cons ev r ih =>
    simp only [List.cons_append, countFetch, List.append_eq, ih]
    omega

theorem requestUrl_log_of_mem (u : String) (e : Env) (h : u ∈ e.cache) :
    (requestUrl u e).log = e.log := by
  rw [requestUrl_of_mem u e h]

theorem createEl_log_cached (url i cls : String) (rem : List Nat) (e : Env)
    (h : url ∈ e.cache) : (createEl url i cls rem e).log = e.log := by
  unfold createEl
  exact requestUrl_log_of_mem url _ h

theorem requestUrl_log_of_not_mem (u : String) (e : Env) (h : u ∉ e.cache) :
    (requestUrl u e).log = e.log ++ [Ev.fetch u] := by
  rw [requestUrl_of_not_mem u e h]

theorem requestUrl_cache_of_not_mem (u : String) (e : Env) (h : u ∉ e.cache) :
    (requestUrl u e).cache = u :: e.cache := by
  rw [requestUrl_of_not_mem u e h]

theorem createEl_log_uncached (url i cls : String) (rem : List Nat) (e : Env)
    (h : url ∉ e.cache) : (createEl url i cls rem e).log = e.log ++ [Ev.fetch url] := by
  unfold createEl
  exact requestUrl_log_of_not_mem url _ h

theorem createEl_cache_uncached (url i cls : String) (rem : List Nat) (e : Env)
    (h : url ∉ e.cache) : (createEl url i cls rem e).cache = url :: e.cache := by
  unfold createEl
  exact requestUrl_cache_of_not_mem url _ h

/-- C7: after `prefetch(url)` has run (its deferred tick included), a
subsequent `load(url)` appends no further fetch event for that URL to
the log — the fetch count for the URL is unchanged by the request.  The
hypothesis states that a fetch-only element already sitting in the
iframe document implies the URL is already cached (which is how such an
element can only have come to exist).  Starting cold, the combined
prime-then-request sequence performs exactly one fetch in total. -/
theorem C7_prime_then_request_single_fetch (f : Nat) (url name : String) (n : Nat) (e : Env)
    (h1 : ∀ doc, e.iframeDoc = some doc → idOf url ∈ doc → url ∈ e.cache) :
    countFetch url (load (f + 2) url (some (Cb.user n)) name (prefetch url e)).log =
      countFetch url (prefetch url e).log ∧
    countFetch url (load (f + 2) url (some (Cb.user n)) name (prefetch url env0)).log = 1 := by
  have main : ∀ e : Env, (∀ doc, e.iframeDoc = some doc → idOf url ∈ doc → url ∈ e.cache) →
      countFetch url (load (f + 2) url (some (Cb.user n)) name (prefetch url e)).log =
        countFetch url (prefetch url e).log := by
    intro e h1
    rcases hg : getElementById e (idOf url) with - | el
    · -- the element is absent from the primary document: prefetch ensures
      -- the URL is cached, so the subsequent load's request is absorbed
      have key : ∀ x : Env, getElementById x (idOf url) = none → url ∈ x.cache →
          countFetch url (load (f + 2) url (some (Cb.user n)) name x).log =
            countFetch url x.log := by
        intro x hx hc
        unfold load
        rw [run_load, hx]
        have : (createEl url (idOf url) name
            (if name ≠ "" then
              (query (subscribe (idOf url) (Cb.user n) x) name).map (fun el => el.eid) else [])
            (subscribe (idOf url) (Cb.user n) x)).log = x.log :=
          createEl_log_cached url (idOf url) name _ (subscribe (idOf url) (Cb.user n) x) hc
        rw [this]
      rcases hifr : e.iframeDoc with - | doc
      · have he1 : prefetch url e =
            prefetchUnder (idOf url) url { e with iframeDoc := some [] } := by
          unfold prefetch
          rw [hg, hifr]
        rw [he1]
        exact key _ (by rw [getElementById_prefetchUnder]; exact hg)
          (mem_cache_prefetchUnder _ _ _)
      · by_cases hmem : idOf url ∈ doc
        · have he1 : prefetch url e = e := by
            unfold prefetch
            rw [hg, hifr]
            simp [hmem]
          rw [he1]
          exact key e hg (h1 doc hifr hmem)
        · have he1 : prefetch url e = prefetchUnder (idOf url) url e := by
            unfold prefetch
            rw [hg, hifr]
            simp [hmem]
          rw [he1]
          exact key _ (by rw [getElementById_prefetchUnder]; exact hg)
            (mem_cache_prefetchUnder _ _ _)
    · -- the element is already in the primary document: prefetch is a
      -- no-op and the load takes the loaded / loading branch
      have he1 : prefetch url e = e := by
        unfold prefetch
        rw [hg]
      rw [he1]
      unfold load
      rw [run_load, hg]
      by_cases hl : el.loaded = true
      · simp only [if_pos hl]
        rw [run_user, pushLog_log, countFetch_append]
        simp [countFetch]
      · simp only [if_neg hl]
        rw [subscribe_log]
  refine ⟨main e h1, ?_⟩
  rw [main env0 (fun doc hd => nomatch hd)]
  rw [show prefetch url env0 = requestUrl url { env0 with iframeDoc := some [idOf url] } from rfl]
  rw [requestUrl_of_not_mem url _ (by simp [env0])]
  simp [countFetch, env0]

theorem C7_witness :
    countFetch "u" (load 5 "u" (some (Cb.user 1)) "" (prefetch "u" env0)).log =
      countFetch "u" (prefetch "u" env0).log ∧
    countFetch "u" (load 5 "u" (some (Cb.user 1)) "" (prefetch "u" env0)).log = 1 :=
  C7_prime_then_request_single_fetch 3 "u" "" 1 env0 (fun doc hd => nomatch hd)

/-! ### Claim C1: concurrent requests for an in-flight resource -/

theorem find?_eid_append_fresh (l : List Elem) (el : Elem) (a : Nat) (hel : el.eid = a)
    (h : ∀ x ∈ l, x.eid ≠ a) :
    (l ++ [el]).find? (fun x => x.eid == a) = some el := by
  rw [List.find?_append, List.find?_eq_none.mpr (fun x hx => by simp [h x hx])]
  simp [List.find?, hel]

theorem channel_setLoaded (a : Nat) (e : Env) (i : String) :
    channel (setLoaded a e) i = channel e i := rfl

/-- C1: while a load of `url` is in flight (its element exists, loaded
marker unset — here: the state right after a first `load` call on an
environment with no element and no channel for `url`), a second `load`
call only registers its callback on the channel (`e2 = subscribe … e1`:
no new element, no fetch, no log or cache change) and returns the same
element the first call created; when the single completion event fires,
both callbacks run exactly once, in call order, and further completion
events change nothing. -/
theorem C1_concurrent_request_dedup (f1 f2 g : Nat) (url name : String) (n1 n2 : Nat)
    (e e1 e2 : Env)
    (h1 : getElementById e (idOf url) = none)
    (h2 : channel e (idOf url) = [])
    (h3 : eidsOk e)
    (he1 : e1 = load (f1 + 1) url (some (Cb.user n1)) name e)
    (he2 : e2 = load (f2 + 1) url (some (Cb.user n2)) name e1) :
    e2 = subscribe (idOf url) (Cb.user n2) e1 ∧
    loadRet url e = e.nextEid ∧
    loadRet url e1 = e.nextEid ∧
    channel e2 (idOf url) = [Cb.user n1, Cb.user n2] ∧
    (run (g + 4) (.handle e.nextEid) e2).log = e2.log ++ [Ev.cbRun n1, Ev.cbRun n2] ∧
    (∀ g', run g' (.handle e.nextEid) (run (g + 4) (.handle e.nextEid) e2) =
      run (g + 4) (.handle e.nextEid) e2) := by
  subst he2
  subst he1
  have hkey1 : load (f1 + 1) url (some (Cb.user n1)) name e =
      createEl url (idOf url) name
        (if name ≠ "" then
          (query (subscribe (idOf url) (Cb.user n1) e) name).map (fun el => el.eid) else [])
        (subscribe (idOf url) (Cb.user n1) e) := by
    unfold load
    rw [run_load, h1]
  rw [hkey1]
  -- characterize the captured group-mate identities
  have hremP : ∀ a' ∈ (if name ≠ "" then
        (query (subscribe (idOf url) (Cb.user n1) e) name).map (fun el => el.eid) else []),
      ∃ mate ∈ e.elems, mate.eid = a' ∧ mate.attached = true := by
    intro a' ha'
    split at ha'
    · obtain ⟨mate, hm, heq⟩ := List.mem_map.mp ha'
      refine ⟨mate, ?_, heq, ?_⟩
      · have : mate ∈ queryL e.elems name := hm
        unfold queryL at this
        exact (List.mem_filter.mp (List.mem_reverse.mp this)).1
      · have : mate ∈ queryL e.elems name := hm
        unfold queryL at this
        have hp := (List.mem_filter.mp (List.mem_reverse.mp this)).2
        simp only [Bool.and_eq_true] at hp
        exact hp.1
    · cases ha'
  generalize hrem : (if name ≠ "" then
      (query (subscribe (idOf url) (Cb.user n1) e) name).map (fun el => el.eid) else []) = rem
  rw [hrem] at hremP
  -- facts about the first call's result
  have hE1elems : (createEl url (idOf url) name rem
        (subscribe (idOf url) (Cb.user n1) e)).elems =
      e.elems ++ [⟨e.nextEid, idOf url, name, false, true, rem⟩] := by
    rw [createEl_elems, subscribe_elems, subscribe_nextEid]
  have hfresh : ∀ x ∈ e.elems, x.eid ≠ e.nextEid :=
    fun x hx => Nat.ne_of_lt (h3.2 x hx)
  have hgE1 : getElementById (createEl url (idOf url) name rem
        (subscribe (idOf url) (Cb.user n1) e)) (idOf url) =
      some ⟨e.nextEid, idOf url, name, false, true, rem⟩ := by
    show docFind _ (idOf url) = _
    rw [hE1elems, docFind_append_single]
    simp
  have hlookE1 : lookupElem (createEl url (idOf url) name rem
        (subscribe (idOf url) (Cb.user n1) e)) e.nextEid =
      some ⟨e.nextEid, idOf url, name, false, true, rem⟩ := by
    show List.find? _ _ = _
    rw [hE1elems]
    exact find?_eid_append_fresh e.elems _ e.nextEid rfl hfresh
  have hchanE1 : channel (createEl url (idOf url) name rem
        (subscribe (idOf url) (Cb.user n1) e)) (idOf url) = [Cb.user n1] := by
    rw [channel_createEl, channel_subscribe_self, h2]
    rfl
  have hnl : ¬((⟨e.nextEid, idOf url, name, false, true, rem⟩ : Elem).loaded = true) := by
    show ¬(false = true)
    exact Bool.false_ne_true
  -- the second call only subscribes
  have hkey2 : load (f2 + 1) url (some (Cb.user n2)) name
        (createEl url (idOf url) name rem (subscribe (idOf url) (Cb.user n1) e)) =
      subscribe (idOf url) (Cb.user n2)
        (createEl url (idOf url) name rem (subscribe (idOf url) (Cb.user n1) e)) := by
    unfold load
    rw [run_load, hgE1]
    simp only [if_neg hnl]
  rw [hkey2]
  have hlookE2 : lookupElem (subscribe (idOf url) (Cb.user n2)
        (createEl url (idOf url) name rem (subscribe (idOf url) (Cb.user n1) e)))
        e.nextEid =
      some ⟨e.nextEid, idOf url, name, false, true, rem⟩ := by
    rw [lookupElem_subscribe]
    exact hlookE1
  have hchanE2 : channel (subscribe (idOf url) (Cb.user n2)
        (createEl url (idOf url) name rem (subscribe (idOf url) (Cb.user n1) e)))
        (idOf url) = [Cb.user n1, Cb.user n2] := by
    rw [channel_subscribe_self, hchanE1]
    rfl
  refine ⟨rfl, ?_, ?_, hchanE2, ?_, ?_⟩
  · unfold loadRet
    rw [h1]
  · unfold loadRet
    rw [hgE1]
  · -- delivery: one completion event, both callbacks, in call order
    rw [run_handle, hlookE2]
    simp only [if_neg hnl]
    have hother : ∀ a' ∈ (⟨e.nextEid, idOf url, name, false, true, rem⟩ : Elem).toRemove,
        ∀ el', lookupElem (setLoaded e.nextEid
            (subscribe (idOf url) (Cb.user n2)
              (createEl url (idOf url) name rem (subscribe (idOf url) (Cb.user n1) e))))
          a' = some el' →
        el'.id ≠ (⟨e.nextEid, idOf url, name, false, true, rem⟩ : Elem).id := by
      intro a' ha' el' hel'
      obtain ⟨mate, hmm, hmeid, hmat⟩ := hremP a' ha'
      have hma : mate.eid ≠ e.nextEid := hfresh mate hmm
      have hlm : lookupElem (subscribe (idOf url) (Cb.user n2)
            (createEl url (idOf url) name rem (subscribe (idOf url) (Cb.user n1) e)))
          a' = some mate := by
        rw [lookupElem_subscribe]
        show List.find? _ _ = _
        rw [hE1elems, List.find?_append]
        rw [← hmeid]
        rw [find?_eid_of_mem_nodup e.elems mate hmm h3.1]
        rfl
      rw [lookupElem_setLoaded, hlm] at hel'
      simp only [Option.map_some'] at hel'
      rw [if_neg hma] at hel'
      cases hel'
      exact docFind_eq_none h1 _ hmm hmat
    have hPU : channel (unloadEls
          (⟨e.nextEid, idOf url, name, false, true, rem⟩ : Elem).toRemove
          (setLoaded e.nextEid
            (subscribe (idOf url) (Cb.user n2)
              (createEl url (idOf url) name rem (subscribe (idOf url) (Cb.user n1) e)))))
        (⟨e.nextEid, idOf url, name, false, true, rem⟩ : Elem).id =
        [Cb.user n1, Cb.user n2] := by
      rw [channel_unloadEls_other _ _ _ hother]
      rw [channel_setLoaded]
      exact hchanE2
    rw [hPU, run_publish_cons, run_user, run_publish_cons, run_user, run_publish_nil_any]
    rw [clearChan_log, pushLog_log, pushLog_log, unloadEls_log]
    rw [show (setLoaded e.nextEid (subscribe (idOf url) (Cb.user n2)
        (createEl url (idOf url) name rem (subscribe (idOf url) (Cb.user n1) e)))).log =
      (subscribe (idOf url) (Cb.user n2)
        (createEl url (idOf url) name rem (subscribe (idOf url) (Cb.user n1) e))).log
      from rfl]
    rw [List.append_assoc]
    rfl
  · -- exactly once: any further completion event is a no-op
    intro g'
    obtain ⟨el', hl', hld'⟩ := handle_result_loaded (g + 3) e.nextEid
      (subscribe (idOf url) (Cb.user n2)
        (createEl url (idOf url) name rem (subscribe (idOf url) (Cb.user n1) e)))
      _ hlookE2
    exact handle_noop_of_loaded g' e.nextEid _ el' hl' hld'

theorem C1_witness :
    load 4 "u" (some (Cb.user 2)) "" (load 4 "u" (some (Cb.user 1)) "" env0) =
      subscribe (idOf "u") (Cb.user 2) (load 4 "u" (some (Cb.user 1)) "" env0) ∧
    loadRet "u" env0 = 0 ∧
    loadRet "u" (load 4 "u" (some (Cb.user 1)) "" env0) = 0 ∧
    channel (load 4 "u" (some (Cb.user 2)) "" (load 4 "u" (some (Cb.user 1)) "" env0))
      (idOf "u") = [Cb.user 1, Cb.user 2] ∧
    (run 9 (.handle 0)
        (load 4 "u" (some (Cb.user 2)) "" (load 4 "u" (some (Cb.user 1)) "" env0))).log =
      (load 4 "u" (some (Cb.user 2)) "" (load 4 "u" (some (Cb.user 1)) "" env0)).log ++
        [Ev.cbRun 1, Ev.cbRun 2] ∧
    (∀ g', run g' (.handle 0)
        (run 9 (.handle 0)
          (load 4 "u" (some (Cb.user 2)) "" (load 4 "u" (some (Cb.user 1)) "" env0))) =
      run 9 (.handle 0)
        (load 4 "u" (some (Cb.user 2)) "" (load 4 "u" (some (Cb.user 1)) "" env0))) :=
  C1_concurrent_request_dedup 3 3 5 "u" "" 1 2 env0
    (load 4 "u" (some (Cb.user 1)) "" env0)
    (load 4 "u" (some (Cb.user 2)) "" (load 4 "u" (some (Cb.user 1)) "" env0))
    (by decide) (by decide) (by decide) rfl rfl

/-! ### Claim C3: group supersession happens only after completion -/

theorem query_subscribe (i : String) (c : Cb) (e : Env) (cls : String) :
    query (subscribe i c e) cls = query e cls := rfl

/-- C3: requesting a new locator under group `G` leaves every existing
element attached for the whole in-flight window (the request only
appends the new element), and the completion event then detaches exactly
the previously attached elements tagged `G`: elements of another group,
and elements already detached, are left completely unchanged. -/
theorem C3_group_supersession (f g : Nat) (url G : String) (n : Nat) (e e1 : Env)
    (hG : G ≠ "")
    (h1 : getElementById e (idOf url) = none)
    (h2 : channel e (idOf url) = [])
    (h3 : eidsOk e)
    (he1 : e1 = load (f + 1) url (some (Cb.user n)) G e) :
    e1.elems = e.elems ++
      [⟨e.nextEid, idOf url, G, false, true, (query e G).map (fun x => x.eid)⟩] ∧
    (∀ el ∈ e.elems, el.attached = true → el.cls = G →
      lookupElem (run (g + 4) (.handle e.nextEid) e1) el.eid =
        some { el with attached := false }) ∧
    (∀ el ∈ e.elems, el.cls ≠ G →
      lookupElem (run (g + 4) (.handle e.nextEid) e1) el.eid = some el) ∧
    (∀ el ∈ e.elems, el.attached = false →
      lookupElem (run (g + 4) (.handle e.nextEid) e1) el.eid = some el) := by
  subst he1
  have hkey1 : load (f + 1) url (some (Cb.user n)) G e =
      createEl url (idOf url) G ((query e G).map (fun x => x.eid))
        (subscribe (idOf url) (Cb.user n) e) := by
    unfold load
    rw [run_load, h1]
    show createEl url (idOf url) G
        (if G ≠ "" then (query (subscribe (idOf url) (Cb.user n) e) G).map (fun el => el.eid)
         else [])
        (subscribe (idOf url) (Cb.user n) e) = _
    rw [if_pos hG]
    rfl
  rw [hkey1]
  have hfresh : ∀ x ∈ e.elems, x.eid ≠ e.nextEid :=
    fun x hx => Nat.ne_of_lt (h3.2 x hx)
  have hE1elems : (createEl url (idOf url) G ((query e G).map (fun x => x.eid))
        (subscribe (idOf url) (Cb.user n) e)).elems =
      e.elems ++ [⟨e.nextEid, idOf url, G, false, true, (query e G).map (fun x => x.eid)⟩] := by
    rw [createEl_elems, subscribe_elems, subscribe_nextEid]
  have hlookE1 : lookupElem (createEl url (idOf url) G ((query e G).map (fun x => x.eid))
        (subscribe (idOf url) (Cb.user n) e)) e.nextEid =
      some ⟨e.nextEid, idOf url, G, false, true, (query e G).map (fun x => x.eid)⟩ := by
    show List.find? _ _ = _
    rw [hE1elems]
    exact find?_eid_append_fresh e.elems _ e.nextEid rfl hfresh
  have hold : ∀ el ∈ e.elems,
      lookupElem (createEl url (idOf url) G ((query e G).map (fun x => x.eid))
        (subscribe (idOf url) (Cb.user n) e)) el.eid = some el := by
    intro el hel
    show List.find? _ _ = _
    rw [hE1elems, List.find?_append, find?_eid_of_mem_nodup e.elems el hel h3.1]
    rfl
  have hnl : ¬((⟨e.nextEid, idOf url, G, false, true,
      (query e G).map (fun x => x.eid)⟩ : Elem).loaded = true) := by
    show ¬(false = true)
    exact Bool.false_ne_true
  have hrmem : ∀ el ∈ e.elems, (el.eid ∈ (query e G).map (fun x => x.eid) ↔
      (el.attached = true ∧ el.cls = G)) := by
    intro el hel
    constructor
    · intro hin
      obtain ⟨y, hy, hyeq⟩ := List.mem_map.mp hin
      have hymem : y ∈ e.elems := by
        unfold query queryL at hy
        exact (List.mem_filter.mp (List.mem_reverse.mp hy)).1
      have hyp : (y.attached && y.cls == G) = true := by
        unfold query queryL at hy
        exact (List.mem_filter.mp (List.mem_reverse.mp hy)).2
      have hye : y = el := by
        have l1 := find?_eid_of_mem_nodup e.elems y hymem h3.1
        have l2 := find?_eid_of_mem_nodup e.elems el hel h3.1
        rw [hyeq] at l1
        rw [l1] at l2
        exact Option.some_inj.mp l2
      subst hye
      simp only [Bool.and_eq_true, beq_iff_eq] at hyp
      exact hyp
    · intro hc
      apply List.mem_map_of_mem
      unfold query queryL
      rw [List.mem_reverse]
      exact List.mem_filter.mpr ⟨hel, by simp [hc.1, hc.2]⟩
  -- the handle body
  have hother : ∀ a' ∈ (query e G).map (fun x => x.eid),
      ∀ el', lookupElem (setLoaded e.nextEid
          (createEl url (idOf url) G ((query e G).map (fun x => x.eid))
            (subscribe (idOf url) (Cb.user n) e))) a' = some el' →
      el'.id ≠ idOf url := by
    intro a' ha' el' hel'
    obtain ⟨y, hy, hyeq⟩ := List.mem_map.mp ha'
    have hymem : y ∈ e.elems := by
      unfold query queryL at hy
      exact (List.mem_filter.mp (List.mem_reverse.mp hy)).1
    have hyat : y.attached = true := by
      unfold query queryL at hy
      have := (List.mem_filter.mp (List.mem_reverse.mp hy)).2
      simp only [Bool.and_eq_true] at this
      exact this.1
    have hlm : lookupElem (createEl url (idOf url) G ((query e G).map (fun x => x.eid))
        (subscribe (idOf url) (Cb.user n) e)) a' = some y := by
      rw [← hyeq]
      exact hold y hymem
    rw [lookupElem_setLoaded, hlm] at hel'
    simp only [Option.map_some'] at hel'
    have hya : y.eid ≠ e.nextEid := hfresh y hymem
    rw [hyeq] at hya
    rw [if_neg (hyeq ▸ hfresh y hymem)] at hel'
    cases hel'
    exact docFind_eq_none h1 _ hymem hyat
  have hPU : channel (unloadEls ((query e G).map (fun x => x.eid))
        (setLoaded e.nextEid
          (createEl url (idOf url) G ((query e G).map (fun x => x.eid))
            (subscribe (idOf url) (Cb.user n) e))))
      (idOf url) = [Cb.user n] := by
    rw [channel_unloadEls_other _ _ _ hother, channel_setLoaded, channel_createEl,
      channel_subscribe_self, h2]
    rfl
  have hrunform : run (g + 4) (.handle e.nextEid)
        (createEl url (idOf url) G ((query e G).map (fun x => x.eid))
          (subscribe (idOf url) (Cb.user n) e)) =
      clearChan (idOf url)
        (pushLog (Ev.cbRun n)
          (unloadEls ((query e G).map (fun x => x.eid))
            (setLoaded e.nextEid
              (createEl url (idOf url) G ((query e G).map (fun x => x.eid))
                (subscribe (idOf url) (Cb.user n) e))))) := by
    rw [run_handle, hlookE1]
    simp only [if_neg hnl]
    rw [hPU, run_publish_cons, run_user, run_publish_nil_any]
  rw [hrunform]
  refine ⟨hE1elems, ?_, ?_, ?_⟩
  · intro el hel hat hcls
    rw [lookupElem_clearChan, lookupElem_pushLog, lookupElem_unloadEls,
      lookupElem_setLoaded, hold el hel]
    simp only [Option.map_some']
    rw [if_neg (hfresh el hel)]
    unfold detachIf
    rw [if_pos ((hrmem el hel).mpr ⟨hat, hcls⟩)]
  · intro el hel hcls
    rw [lookupElem_clearChan, lookupElem_pushLog, lookupElem_unloadEls,
      lookupElem_setLoaded, hold el hel]
    simp only [Option.map_some']
    rw [if_neg (hfresh el hel)]
    unfold detachIf
    rw [if_neg (fun hin => hcls ((hrmem el hel).mp hin).2)]
  · intro el hel hat
    rw [lookupElem_clearChan, lookupElem_pushLog, lookupElem_unloadEls,
      lookupElem_setLoaded, hold el hel]
    simp only [Option.map_some']
    rw [if_neg (hfresh el hel)]
    unfold detachIf
    rw [if_neg (fun hin => by
      have := ((hrmem el hel).mp hin).1
      rw [hat] at this
      cases this)]

/-- An environment with a loaded element of group "G" (the L1 of the C3
witness). -/
def envGroupG : Env := run 9 (.handle 0) (load 3 "L1" none "G" env0)

theorem C3_witness :
    (load 4 "L2" (some (Cb.user 3)) "G" envGroupG).elems = envGroupG.elems ++
      [⟨1, idOf "L2", "G", false, true, (query envGroupG "G").map (fun x => x.eid)⟩] ∧
    (∀ el ∈ envGroupG.elems, el.attached = true → el.cls = "G" →
      lookupElem (run 9 (.handle 1) (load 4 "L2" (some (Cb.user 3)) "G" envGroupG)) el.eid =
        some { el with attached := false }) ∧
    (∀ el ∈ envGroupG.elems, el.cls ≠ "G" →
      lookupElem (run 9 (.handle 1) (load 4 "L2" (some (Cb.user 3)) "G" envGroupG)) el.eid =
        some el) ∧
    (∀ el ∈ envGroupG.elems, el.attached = false →
      lookupElem (run 9 (.handle 1) (load 4 "L2" (some (Cb.user 3)) "G" envGroupG)) el.eid =
        some el) :=
  C3_group_supersession 3 5 "L2" "G" 3 envGroupG
    (load 4 "L2" (some (Cb.user 3)) "G" envGroupG)
    (by decide) (by decide) (by decide) (by decide) rfl

/-! ### Claim C9: parsing the example markup -/

/-- C9: `parse` on `"<script src=\"a.js\"></script>rest"` yields a
ParseResult whose original markup is the input verbatim, whose stripped
markup is `"rest"`, and whose queue is the single item with url
`"a.js"` (and empty text and name); empty input yields the empty
ParseResult without scanning. -/
theorem C9_parse_example :
    parse "<script src=\"a.js\"></script>rest" =
      ⟨"<script src=\"a.js\"></script>rest", "rest", [⟨"a.js", "", ""⟩]⟩ ∧
    parse "" = ⟨"", "", []⟩ := by
  constructor
  · decide
  · decide

/-! ### Claim C10: a url takes priority over inline text -/

/-- C10: executing a queue item that carries both a non-empty url and
non-empty inline text loads the url and never evaluates the text: the
log after the dispatch contains only the fetch event, the log after the
load's completion contains only the fetch and the done-callback events,
and no text-evaluation event ever appears. -/
theorem C10_url_priority (f g : Nat) (url text name orig parsed : String) (n : Nat)
    (h1 : url ≠ "") (h2 : text ≠ "") :
    (execute (f + 2) ⟨orig, parsed, [⟨url, text, name⟩]⟩ (some n) env0).log =
      [Ev.fetch url] ∧
    (run (g + 5) (.handle 0)
        (execute (f + 2) ⟨orig, parsed, [⟨url, text, name⟩]⟩ (some n) env0)).log =
      [Ev.fetch url, Ev.cbRun n] ∧
    Ev.evalText text ∉
      (run (g + 5) (.handle 0)
        (execute (f + 2) ⟨orig, parsed, [⟨url, text, name⟩]⟩ (some n) env0)).log := by
  have e2key : execute (f + 2) ⟨orig, parsed, [⟨url, text, name⟩]⟩ (some n) env0 =
      run (f + 1) (.load url (some (.next [⟨url, text, name⟩] 1 (some n))) name) env0 := by
    unfold execute
    rw [if_neg (show ¬([(⟨url, text, name⟩ : Item)] : List Item).length ≤ 0 by simp)]
    rw [run_next]
    simp only [List.get?]
    rw [if_pos h1]
  have loadkey : run (f + 1)
        (.load url (some (.next [⟨url, text, name⟩] 1 (some n))) name) env0 =
      createEl url (idOf url) name []
        (subscribe (idOf url) (.next [⟨url, text, name⟩] 1 (some n)) env0) := by
    rw [run_load]
    rw [show getElementById env0 (idOf url) = none from rfl]
    show createEl url (idOf url) name
        (if name ≠ "" then
          (query (subscribe (idOf url) (Cb.next [⟨url, text, name⟩] 1 (some n)) env0)
            name).map (fun el => el.eid) else [])
        (subscribe (idOf url) (Cb.next [⟨url, text, name⟩] 1 (some n)) env0) = _
    rw [show (if name ≠ "" then
        (query (subscribe (idOf url) (Cb.next [⟨url, text, name⟩] 1 (some n)) env0)
          name).map (fun el => el.eid) else []) = ([] : List Nat) from by split <;> rfl]
  rw [e2key, loadkey]
  have hcold : url ∉ (subscribe (idOf url) (Cb.next [⟨url, text, name⟩] 1 (some n))
      env0).cache := (by simp : url ∉ ([] : List String))
  have hlog1 : (createEl url (idOf url) name []
      (subscribe (idOf url) (.next [⟨url, text, name⟩] 1 (some n)) env0)).log =
      [Ev.fetch url] := by
    rw [createEl_log_uncached url (idOf url) name [] _ hcold]
    rfl
  have hlook : lookupElem (createEl url (idOf url) name []
      (subscribe (idOf url) (.next [⟨url, text, name⟩] 1 (some n)) env0)) 0 =
      some ⟨0, idOf url, name, false, true, []⟩ := by
    unfold createEl
    rw [lookupElem_requestUrl]
    rfl
  have hnl : ¬((⟨0, idOf url, name, false, true, []⟩ : Elem).loaded = true) := by
    show ¬(false = true)
    exact Bool.false_ne_true
  have hchan : channel (unloadEls ([] : List Nat) (setLoaded 0
        (createEl url (idOf url) name []
          (subscribe (idOf url) (.next [⟨url, text, name⟩] 1 (some n)) env0))))
      (idOf url) = [Cb.next [⟨url, text, name⟩] 1 (some n)] := by
    show channel (setLoaded 0 (createEl url (idOf url) name []
        (subscribe (idOf url) (.next [⟨url, text, name⟩] 1 (some n)) env0))) (idOf url) = _
    rw [channel_setLoaded, channel_createEl, channel_subscribe_self]
    rfl
  have hand : run (g + 5) (.handle 0)
      (createEl url (idOf url) name []
        (subscribe (idOf url) (.next [⟨url, text, name⟩] 1 (some n)) env0)) =
      clearChan (idOf url)
        (pushLog (Ev.cbRun n)
          (unloadEls ([] : List Nat) (setLoaded 0
            (createEl url (idOf url) name []
              (subscribe (idOf url) (.next [⟨url, text, name⟩] 1 (some n)) env0))))) := by
    rw [run_handle, hlook]
    simp only [if_neg hnl]
    rw [hchan, run_publish_cons, run_next]
    simp only [List.get?]
    rw [run_publish_nil_any]
    rfl
  rw [hand]
  refine ⟨hlog1, ?_, ?_⟩
  · rw [clearChan_log, pushLog_log, unloadEls_log]
    show (createEl url (idOf url) name []
      (subscribe (idOf url) (.next [⟨url, text, name⟩] 1 (some n)) env0)).log ++ _ = _
    rw [hlog1]
    rfl
  · rw [clearChan_log, pushLog_log, unloadEls_log]
    show Ev.evalText text ∉ (createEl url (idOf url) name []
      (subscribe (idOf url) (.next [⟨url, text, name⟩] 1 (some n)) env0)).log ++ [Ev.cbRun n]
    rw [hlog1]
    simp

theorem C10_witness :
    (execute 2 ⟨"", "", [⟨"a", "x", ""⟩]⟩ (some 9) env0).log = [Ev.fetch "a"] ∧
    (run 5 (.handle 0) (execute 2 ⟨"", "", [⟨"a", "x", ""⟩]⟩ (some 9) env0)).log =
      [Ev.fetch "a", Ev.cbRun 9] ∧
    Ev.evalText "x" ∉
      (run 5 (.handle 0) (execute 2 ⟨"", "", [⟨"a", "x", ""⟩]⟩ (some 9) env0)).log :=
  C10_url_priority 0 0 "a" "x" "" "" "" 9 (by decide) (by decide)

/-! ### Claim C2: the batch executor serializes its queue

The executor's reachable states are characterized by an invariant: the
log is always `flatEvs` of a prefix of the queue (the dispatch events of
the items processed so far, in queue order), with the `opt_callback`
event appended exactly when the whole queue has completed. -/

/-- The observable events of dispatching one queue item (scripts.js
lines 277-283): a url item issues a fetch (the url takes priority), a
text item evaluates its text, an empty item does nothing. -/
def itemEvs (it : Item) : List Ev :=
  if it.url ≠ "" then [Ev.fetch it.url]
  else if it.text ≠ "" then [Ev.evalText it.text]
  else []

/-- The dispatch events of a list of items, in queue order. -/
def flatEvs : List Item → List Ev
  | [] => []
  | it :: r => itemEvs it ++ flatEvs r

/-- The position and value of the first url item of a list, if any: the
item on which the executor blocks awaiting a completion event. -/
def firstUrl : List Item → Option (Nat × Item)
  | [] => none
  | it :: r =>
    if it.url ≠ "" then some (0, it)
    else (firstUrl r).map (fun pr => (pr.1 + 1, pr.2))

/-- The event of the executor's optional `opt_callback`. -/
def evD : Option Nat → List Ev
  | some n => [Ev.cbRun n]
  | none => []

/-- The external urls of the queue are pairwise distinct (so that no
queue item re-requests a url already loaded by an earlier item). -/
def urlsDistinct (q : List Item) : Prop :=
  q.Pairwise (fun a b => a.url ≠ "" → b.url ≠ "" → a.url ≠ b.url)

instance (q : List Item) : Decidable (urlsDistinct q) := by
  unfold urlsDistinct; infer_instance

theorem flatEvs_append (a b : List Item) : flatEvs (a ++ b) = flatEvs a ++ flatEvs b := by
  induction a with
  | nil => rfl
  | cons it r ih => simp only [List.cons_append, flatEvs, List.append_eq, ih, List.append_assoc]

theorem cbRun_not_mem_itemEvs (n : Nat) (it : Item) : Ev.cbRun n ∉ itemEvs it := by
  unfold itemEvs
  split
  · simp
  · split <;> simp

theorem cbRun_not_mem_flatEvs (n : Nat) (l : List Item) : Ev.cbRun n ∉ flatEvs l := by
  induction l with
  | nil => simp [flatEvs]
  | cons it r ih =>
    simp only [flatEvs, List.mem_append]
    rintro (h | h)
    · exact cbRun_not_mem_itemEvs n it h
    · exact ih h

theorem flatEvs_take_append (q : List Item) (m : Nat) :
    ∃ t, flatEvs (q.take m) ++ t = flatEvs q := by
  refine ⟨flatEvs (q.drop m), ?_⟩
  rw [← flatEvs_append, List.take_append_drop]

theorem firstUrl_some {l : List Item} {r : Nat} {it : Item}
    (h : firstUrl l = some (r, it)) : l.get? r = some it ∧ it.url ≠ "" := by
  induction l generalizing r with
  | nil => cases h
  | cons x xs ih =>
    unfold firstUrl at h
    split at h
    · rename_i hx
      cases h
      exact ⟨rfl, hx⟩
    · rcases hf : firstUrl xs with - | pr
      · rw [hf] at h; cases h
      · rw [hf] at h
        simp only [Option.map_some'] at h
        cases h
        obtain ⟨h1, h2⟩ := ih hf
        exact ⟨h1, h2⟩

theorem get?_drop' (l : List Item) (i j : Nat) : (l.drop i).get? j = l.get? (i + j) :=
  List.get?_drop l i j

theorem drop_succ' (l : List Item) (j : Nat) : l.drop (j + 1) = (l.drop j).drop 1 := by
  rw [List.drop_drop, Nat.add_comm]

theorem pairwise_get? {R : Item → Item → Prop} :
    ∀ {l : List Item}, l.Pairwise R →
      ∀ {a b : Nat} {x y : Item}, l.get? a = some x → l.get? b = some y → a < b → R x y := by
  intro l hp
  induction l with
  | nil => intro a b x y hx; cases hx
  | cons hd tl ih =>
    rw [List.pairwise_cons] at hp
    intro a b x y hx hy hab
    cases a with
    | zero =>
      cases hx
      cases b with
      | zero => cases hab
      | succ b =>
        exact hp.1 y (by
          have : tl.get? b = some y := hy
          exact List.get?_mem this)
    | succ a =>
      cases b with
      | zero => cases hab
      | succ b =>
        exact ih hp.2 hx hy (Nat.lt_of_succ_lt_succ hab)

theorem idOf_inj {a b : String} (h : idOf a = idOf b) : a = b := by
  unfold idOf hashCode at h
  have hd : ("js-" ++ a).data = ("js-" ++ b).data := by rw [h]
  rw [String.data_append, String.data_append] at hd
  exact String.ext (List.append_cancel_left hd)

theorem rem_mates (i cls : String) (c : Cb) (e : Env) :
    ∀ a' ∈ (if cls ≠ "" then
        (query (subscribe i c e) cls).map (fun el => el.eid) else []),
      ∃ y ∈ e.elems, y.eid = a' ∧ y.attached = true := by
  intro a' ha'
  split at ha'
  · obtain ⟨mate, hm, heq⟩ := List.mem_map.mp ha'
    have hmem : mate ∈ queryL e.elems cls := hm
    unfold queryL at hmem
    have h1 := (List.mem_filter.mp (List.mem_reverse.mp hmem)).1
    have h2 := (List.mem_filter.mp (List.mem_reverse.mp hmem)).2
    simp only [Bool.and_eq_true] at h2
    exact ⟨mate, h1, heq, h2.1⟩
  · cases ha'

theorem getElementById_pushLog (ev : Ev) (e : Env) (s : String) :
    getElementById (pushLog ev e) s = getElementById e s := rfl

/-- The executor's dispatch walk (scripts.js lines 273-289): invoking
the `getNextScript` continuation at index `j` processes queue items from
`j` on — synchronously through text and empty items — until it either
creates the element for the first url item and blocks awaiting its
completion, or reaches the end of the queue and runs `opt_callback`. -/
theorem dispatch_run :
    ∀ (rest q : List Item) (j : Nat) (d : Option Nat) (fuel : Nat) (e : Env),
      q.drop j = rest →
      2 * rest.length + 2 ≤ fuel →
      (∀ r it, rest.get? r = some it → it.url ≠ "" →
        getElementById e (idOf it.url) = none ∧ channel e (idOf it.url) = [] ∧
        it.url ∉ e.cache) →
      (match firstUrl rest with
       | none =>
         run fuel (.invoke (.next q j d)) e =
           { e with log := e.log ++ (flatEvs rest ++ evD d) }
       | some (r, itB) =>
         (∃ rem,
           (run fuel (.invoke (.next q j d)) e).elems =
             e.elems ++ [⟨e.nextEid, idOf itB.url, itB.name, false, true, rem⟩] ∧
           (∀ a' ∈ rem, ∃ y ∈ e.elems, y.eid = a' ∧ y.attached = true)) ∧
         (run fuel (.invoke (.next q j d)) e).nextEid = e.nextEid + 1 ∧
         (run fuel (.invoke (.next q j d)) e).log =
           e.log ++ flatEvs (rest.take (r + 1)) ∧
         (run fuel (.invoke (.next q j d)) e).cache = itB.url :: e.cache ∧
         channel (run fuel (.invoke (.next q j d)) e) (idOf itB.url) =
           [Cb.next q (j + r + 1) d] ∧
         (∀ s, s ≠ idOf itB.url →
           channel (run fuel (.invoke (.next q j d)) e) s = channel e s)) := by
  intro rest
  induction rest with
  | nil =>
    intro q j d fuel e hdrop hfuel hF
    show run fuel (.invoke (.next q j d)) e = _
    obtain ⟨f, rfl⟩ : ∃ f, fuel = f + 1 := ⟨fuel - 1, by omega⟩
    rw [run_next]
    have hq : q.get? j = none :=
      List.get?_eq_none.mpr (List.drop_eq_nil_iff_le.mp hdrop)
    rw [hq]
    cases d with
    | none =>
      show e = _
      simp [evD, flatEvs]
    | some n =>
      show pushLog (Ev.cbRun n) e = _
      simp [evD, flatEvs, pushLog]
  | cons it rest' ih =>
    intro q j d fuel e hdrop hfuel hF
    have hget : q.get? j = some it := by
      have := get?_drop' q j 0
      rw [hdrop] at this
      simpa using this.symm
    have hdrop' : q.drop (j + 1) = rest' := by
      rw [drop_succ', hdrop]
      rfl
    by_cases hurl : it.url ≠ ""
    · -- a url item: create the element and block
      obtain ⟨f, rfl⟩ : ∃ f, fuel = f + 2 := ⟨fuel - 2, by omega⟩
      have hFe := hF 0 it rfl hurl
      have hkey : run (f + 2) (.invoke (.next q j d)) e =
          createEl it.url (idOf it.url) it.name
            (if it.name ≠ "" then
              (query (subscribe (idOf it.url) (Cb.next q (j + 1) d) e) it.name).map
                (fun el => el.eid) else [])
            (subscribe (idOf it.url) (Cb.next q (j + 1) d) e) := by
        rw [run_next, hget]
        simp only [if_pos hurl]
        rw [run_load, hFe.1]
      have hfu : firstUrl (it :: rest') = some (0, it) := by
        unfold firstUrl
        rw [if_pos hurl]
      rw [hfu]
      rw [hkey]
      refine ⟨⟨_, ?_, rem_mates (idOf it.url) it.name (Cb.next q (j + 1) d) e⟩,
        ?_, ?_, ?_, ?_, ?_⟩
      · rw [createEl_elems, subscribe_elems, subscribe_nextEid]
      · rw [createEl_nextEid, subscribe_nextEid]
      · rw [createEl_log_uncached it.url (idOf it.url) it.name _
            (subscribe (idOf it.url) (Cb.next q (j + 1) d) e) hFe.2.2, subscribe_log]
        have : flatEvs ((it :: rest').take (0 + 1)) = [Ev.fetch it.url] := by
          show flatEvs [it] = _
          show itemEvs it ++ [] = _
          rw [itemEvs, if_pos hurl]
          simp
        rw [this]
      · rw [createEl_cache_uncached it.url (idOf it.url) it.name _
            (subscribe (idOf it.url) (Cb.next q (j + 1) d) e) hFe.2.2, subscribe_cache]
      · rw [channel_createEl, channel_subscribe_self, hFe.2.1]
        rfl
      · intro s hs
        rw [channel_createEl, channel_subscribe_ne _ _ _ _ hs]
    · -- a text or empty item: advance synchronously and recurse
      have hF' : ∀ ev : Ev, ∀ r it', rest'.get? r = some it' → it'.url ≠ "" →
          getElementById (pushLog ev e) (idOf it'.url) = none ∧
          channel (pushLog ev e) (idOf it'.url) = [] ∧
          it'.url ∉ (pushLog ev e).cache := by
        intro ev r it' hr hu
        have := hF (r + 1) it' (by simpa using hr) hu
        exact ⟨this.1, this.2.1, this.2.2⟩
      by_cases htext : it.text ≠ ""
      · -- text item
        obtain ⟨f, rfl⟩ : ∃ f, fuel = f + 2 := ⟨fuel - 2, by omega⟩
        have hkey : run (f + 2) (.invoke (.next q j d)) e =
            run f (.invoke (.next q (j + 1) d)) (pushLog (Ev.evalText it.text) e) := by
          rw [run_next, hget]
          simp only [if_neg hurl, if_pos htext]
          rw [run_evalS]
        have hih := ih q (j + 1) d f (pushLog (Ev.evalText it.text) e) hdrop'
          (by simp only [List.length_cons] at hfuel; omega)
          (hF' (Ev.evalText it.text))
        have hfu : firstUrl (it :: rest') = (firstUrl rest').map (fun pr => (pr.1 + 1, pr.2)) := by
          show (if it.url ≠ "" then some (0, it)
            else (firstUrl rest').map (fun pr => (pr.1 + 1, pr.2))) = _
          rw [if_neg hurl]
        rw [hfu]
        rcases hfr : firstUrl rest' with - | ⟨r', itB⟩
        · rw [hfr] at hih
          simp only [hfr, Option.map_none']
          rw [hkey, hih]
          simp only [pushLog_log, pushLog_elems, pushLog_nextEid, pushLog_pubsub,
            pushLog_cache, pushLog_iframeDoc]
          show Env.mk _ _ _ _ _ _ = Env.mk _ _ _ _ _ _
          rw [flatEvs, itemEvs, if_neg hurl, if_pos htext]
          simp [List.append_assoc]
        · rw [hfr] at hih
          simp only [hfr, Option.map_some']
          obtain ⟨⟨rem, hel, hmates⟩, hnx, hlog, hcache, hcs, hco⟩ := hih
          rw [hkey]
          refine ⟨⟨rem, ?_, ?_⟩, ?_, ?_, ?_, ?_, ?_⟩
          · rw [hel]
            simp only [pushLog_elems, pushLog_nextEid]
          · intro a' ha'
            obtain ⟨y, hy, h1, h2⟩ := hmates a' ha'
            exact ⟨y, by simpa using hy, h1, h2⟩
          · rw [hnx]
            simp only [pushLog_nextEid]
          · rw [hlog]
            simp only [pushLog_log]
            show _ = e.log ++ flatEvs (it :: rest'.take (r' + 1))
            rw [flatEvs, itemEvs, if_neg hurl, if_pos htext]
            simp [List.append_assoc]
          · rw [hcache]
            simp only [pushLog_cache]
          · rw [show j + (r' + 1) + 1 = j + 1 + r' + 1 from by omega]
            exact hcs
          · intro s hs
            rw [hco s hs]
            rfl
      · -- empty item
        obtain ⟨f, rfl⟩ : ∃ f, fuel = f + 1 := ⟨fuel - 1, by omega⟩
        have hkey : run (f + 1) (.invoke (.next q j d)) e =
            run f (.invoke (.next q (j + 1) d)) e := by
          rw [run_next, hget]
          simp only [if_neg hurl, if_neg htext]
        have hih := ih q (j + 1) d f e hdrop'
          (by simp only [List.length_cons] at hfuel; omega)
          (fun r it' hr hu => hF (r + 1) it' (by simpa using hr) hu)
        have hfu : firstUrl (it :: rest') = (firstUrl rest').map (fun pr => (pr.1 + 1, pr.2)) := by
          show (if it.url ≠ "" then some (0, it)
            else (firstUrl rest').map (fun pr => (pr.1 + 1, pr.2))) = _
          rw [if_neg hurl]
        rw [hfu]
        rcases hfr : firstUrl rest' with - | ⟨r', itB⟩
        · rw [hfr] at hih
          simp only [hfr, Option.map_none']
          rw [hkey, hih]
          show Env.mk _ _ _ _ _ _ = Env.mk _ _ _ _ _ _
          rw [flatEvs, itemEvs, if_neg hurl, if_neg htext]
          simp
        · rw [hfr] at hih
          simp only [hfr, Option.map_some']
          obtain ⟨⟨rem, hel, hmates⟩, hnx, hlog, hcache, hcs, hco⟩ := hih
          rw [hkey]
          refine ⟨⟨rem, hel, hmates⟩, hnx, ?_, hcache, ?_, hco⟩
          · rw [hlog]
            show _ = e.log ++ flatEvs (it :: rest'.take (r' + 1))
            rw [flatEvs, itemEvs, if_neg hurl, if_neg htext]
            rfl
          · rw [show j + (r' + 1) + 1 = j + 1 + r' + 1 from by omega]
            exact hcs

/-- The executor's reachable-state invariant for queue `q` with done
callback `d`: either the executor is blocked on the url item at
position `p` — its freshly created element pending, the continuation
subscribed on its channel, the log holding exactly the dispatch events
of the items up to and including `p`, every other element loaded, and
the future url items untouched — or the whole queue has completed and
the log holds all dispatch events followed by the done-callback
event. -/
def ExecInv (q : List Item) (d : Option Nat) (e : Env) : Prop :=
  (∃ p it pend pendEl,
    q.get? p = some it ∧ it.url ≠ "" ∧
    e.log = flatEvs (q.take (p + 1)) ∧
    lookupElem e pend = some pendEl ∧
    pendEl.id = idOf it.url ∧
    pendEl.loaded = false ∧
    channel e (idOf it.url) = [Cb.next q (p + 1) d] ∧
    (∀ el ∈ e.elems, el.eid ∈ pendEl.toRemove → el.id ≠ pendEl.id) ∧
    (∀ el ∈ e.elems, el.eid ≠ pend → el.loaded = true) ∧
    (e.elems.map (fun x => x.eid)).Nodup ∧
    (∀ el ∈ e.elems, el.eid < e.nextEid) ∧
    (∀ k it', q.get? k = some it' → p + 1 ≤ k → it'.url ≠ "" →
      getElementById e (idOf it'.url) = none ∧ channel e (idOf it'.url) = [] ∧
      it'.url ∉ e.cache)) ∨
  (e.log = flatEvs q ++ evD d ∧ ∀ el ∈ e.elems, el.loaded = true)

theorem getElementById_setLoaded_none (a : Nat) (e : Env) (s : String)
    (h : getElementById e s = none) : getElementById (setLoaded a e) s = none := by
  unfold getElementById setLoaded updateElem
  exact docFind_map_none e.elems s _
    (fun el => by split <;> rfl) (fun el hel => by split at hel <;> exact hel) h

theorem getElementById_unloadEls_none (l : List Nat) (e : Env) (s : String)
    (h : getElementById e s = none) : getElementById (unloadEls l e) s = none := by
  unfold getElementById
  rw [unloadEls_elems]
  exact docFind_map_none e.elems s _ (detachIf_id l) (detachIf_attached_imp l) h

theorem eids_setLoaded (a : Nat) (e : Env) :
    (setLoaded a e).elems.map (fun x => x.eid) = e.elems.map (fun x => x.eid) := by
  show (e.elems.map _).map _ = _
  rw [List.map_map]
  exact List.map_congr_left (fun x _ => by simp only [Function.comp]; split <;> rfl)

theorem eids_unloadEls (l : List Nat) (e : Env) :
    (unloadEls l e).elems.map (fun x => x.eid) = e.elems.map (fun x => x.eid) := by
  rw [unloadEls_elems, List.map_map]
  exact List.map_congr_left (fun x _ => by simp only [Function.comp, detachIf_eid])

theorem eid_unique {l : List Elem} (hn : (l.map (fun x => x.eid)).Nodup) {x y : Elem}
    (hx : x ∈ l) (hy : y ∈ l) (hxy : x.eid = y.eid) : x = y := by
  have l1 := find?_eid_of_mem_nodup l x hx hn
  have l2 := find?_eid_of_mem_nodup l y hy hn
  rw [hxy] at l1
  rw [l1] at l2
  exact Option.some_inj.mp l2

theorem mem_unload_set {l : List Nat} {a : Nat} {e : Env} {x : Elem}
    (hx : x ∈ (unloadEls l (setLoaded a e)).elems) :
    ∃ x0 ∈ e.elems, x.eid = x0.eid ∧ x.id = x0.id ∧
      x.loaded = (if x0.eid = a then true else x0.loaded) := by
  rw [unloadEls_elems] at hx
  obtain ⟨x1, hx1, rfl⟩ := List.mem_map.mp hx
  have hx1' : x1 ∈ (e.elems.map
      (fun el => if el.eid = a then { el with loaded := true } else el)) := hx1
  obtain ⟨x0, hx0, rfl⟩ := List.mem_map.mp hx1'
  refine ⟨x0, hx0, ?_, ?_, ?_⟩
  · rw [detachIf_eid]; split <;> rfl
  · rw [detachIf_id]; split <;> rfl
  · rw [detachIf_loaded]; split <;> rfl

theorem channel_unload_set (l : List Nat) (a : Nat) (e : Env) (s : String)
    (h : channel e s = []) : channel (unloadEls l (setLoaded a e)) s = [] :=
  channel_unloadEls_nil l _ s (by rw [channel_setLoaded]; exact h)

/-- Starting the executor from the empty environment establishes the
invariant. -/
theorem exec_init (q : List Item) (orig parsed : String) (d : Option Nat) (fuel : Nat)
    (hP : urlsDistinct q)
    (hfuel : 2 * q.length + 2 ≤ fuel) :
    ExecInv q d (execute fuel ⟨orig, parsed, q⟩ d env0) := by
  unfold execute
  by_cases hq : q.length ≤ 0
  · rw [if_pos hq]
    right
    have hqq : q = [] := List.eq_nil_of_length_eq_zero (Nat.le_zero.mp hq)
    subst hqq
    cases d with
    | none => exact ⟨rfl, by intro el h; cases h⟩
    | some n => exact ⟨rfl, by intro el h; cases h⟩
  · rw [if_neg hq]
    have hdisp := dispatch_run q q 0 d fuel env0 (List.drop_zero q) hfuel
      (fun r it _ _ => ⟨rfl, rfl, by simp [env0]⟩)
    rcases hfu : firstUrl q with - | ⟨r, itB⟩
    · rw [hfu] at hdisp
      right
      rw [hdisp]
      exact ⟨rfl, by intro el h; cases h⟩
    · rw [hfu] at hdisp
      obtain ⟨⟨rem, helems, hmates⟩, hnx, hlog, hcache, hcs, hco⟩ := hdisp
      left
      obtain ⟨hget, hurl⟩ := firstUrl_some hfu
      refine ⟨r, itB, 0, ⟨0, idOf itB.url, itB.name, false, true, rem⟩,
        hget, hurl, hlog, ?_, rfl, rfl, ?_, ?_, ?_, ?_, ?_, ?_⟩
      · show List.find? _ _ = _
        rw [helems]
        exact find?_eid_append_fresh env0.elems _ 0 rfl (fun x hx => by cases hx)
      · rw [show (0 : Nat) + r + 1 = r + 1 from by omega] at hcs
        exact hcs
      · intro el hel hin
        obtain ⟨y, hy, -⟩ := hmates _ hin
        cases hy
      · intro el hel hne
        rw [helems] at hel
        rcases List.mem_cons.mp hel with rfl | h
        · exact absurd rfl hne
        · cases h
      · rw [helems]
        simp [env0]
      · intro el hel
        rw [helems] at hel
        rcases List.mem_cons.mp hel with rfl | h
        · rw [hnx]
          show env0.nextEid < env0.nextEid + 1
          omega
        · cases h
      · intro k it' hk hpk hu
        have hne : itB.url ≠ it'.url := by
          have hr := pairwise_get? hP hget hk (by omega)
          exact hr hurl hu
        have hid : idOf it'.url ≠ idOf itB.url := fun hc => hne (idOf_inj hc).symm
        refine ⟨?_, ?_, ?_⟩
        · show docFind _ _ = none
          rw [helems]
          rw [docFind_append_single]
          rw [if_neg (by simp [hid.symm] : ¬((⟨env0.nextEid, idOf itB.url, itB.name,
            false, true, rem⟩ : Elem).attached &&
            (⟨env0.nextEid, idOf itB.url, itB.name, false, true, rem⟩ : Elem).id ==
              idOf it'.url) = true)]
          rfl
        · rw [hco _ hid]
          rfl
        · rw [hcache]
          intro hc
          rcases List.mem_cons.mp hc with hc1 | hc2
          · exact hne hc1.symm
          · cases hc2

/-- Any completion event preserves the executor invariant: a completion
for an unknown or already-loaded element is a no-op, and the completion
for the pending element advances the cursor — dispatching the following
items in order until the next url item blocks or the queue ends. -/
theorem exec_step (q : List Item) (d : Option Nat) (f : Nat) (e : Env) (a : Nat)
    (hP : urlsDistinct q)
    (hfuel : 2 * q.length + 2 ≤ f + 1)
    (hInv : ExecInv q d e) :
    ExecInv q d (run (f + 3) (.handle a) e) := by
  rcases hInv with ⟨p, it, pend, pendEl, hB1, hB1u, hBlog, hBpend, hBid, hBld, hBchan,
      hBguard, hBothers, hBnodup, hBbound, hBF⟩ | ⟨hQlog, hQld⟩
  case inr =>
    rcases hl : lookupElem e a with - | el
    · rw [handle_noop_of_none _ _ _ hl]
      exact Or.inr ⟨hQlog, hQld⟩
    · rw [handle_noop_of_loaded _ _ _ el hl (hQld el (lookupElem_eq_some hl).1)]
      exact Or.inr ⟨hQlog, hQld⟩
  case inl =>
    rcases hl : lookupElem e a with - | el
    · rw [handle_noop_of_none _ _ _ hl]
      exact Or.inl ⟨p, it, pend, pendEl, hB1, hB1u, hBlog, hBpend, hBid, hBld, hBchan,
        hBguard, hBothers, hBnodup, hBbound, hBF⟩
    · by_cases hld : el.loaded = true
      · rw [handle_noop_of_loaded _ _ _ el hl hld]
        exact Or.inl ⟨p, it, pend, pendEl, hB1, hB1u, hBlog, hBpend, hBid, hBld, hBchan,
          hBguard, hBothers, hBnodup, hBbound, hBF⟩
      · -- the completion event is the pending element's
        have hmem : el ∈ e.elems := (lookupElem_eq_some hl).1
        have hea : el.eid = a := (lookupElem_eq_some hl).2
        have hap : a = pend := by
          by_contra hne
          have : el.eid ≠ pend := by rw [hea]; exact hne
          exact hld (hBothers el hmem this)
        subst hap
        have hepel : el = pendEl := by
          rw [hl] at hBpend
          exact Option.some_inj.mp hBpend
        subst hepel
        have hnl : ¬(el.loaded = true) := by rw [hBld]; exact Bool.false_ne_true
        rw [run_handle, hl]
        simp only [if_neg hnl]
        have hother : ∀ a' ∈ el.toRemove, ∀ el',
            lookupElem (setLoaded a e) a' = some el' → el'.id ≠ el.id := by
          intro a' ha' el' hel'
          rw [lookupElem_setLoaded] at hel'
          rcases hx : lookupElem e a' with - | x
          · rw [hx] at hel'; cases hel'
          · rw [hx] at hel'
            simp only [Option.map_some'] at hel'
            have hxe := lookupElem_eq_some hx
            have hguard := hBguard x hxe.1 (by rw [hxe.2]; exact ha')
            cases hel'
            split
            · exact hguard
            · exact hguard
        have hE2chan : channel (unloadEls el.toRemove (setLoaded a e)) el.id =
            [Cb.next q (p + 1) d] := by
          rw [channel_unloadEls_other _ _ _ hother, channel_setLoaded, hBid, hBchan]
        rw [hE2chan, run_publish_cons, run_publish_nil_any]
        have hE2getnone : ∀ s, getElementById e s = none →
            getElementById (unloadEls el.toRemove (setLoaded a e)) s = none :=
          fun s h => getElementById_unloadEls_none _ _ s
            (getElementById_setLoaded_none a e s h)
        have hE2cache : (unloadEls el.toRemove (setLoaded a e)).cache = e.cache := by
          rw [unloadEls_cache]
          rfl
        have hE2log : (unloadEls el.toRemove (setLoaded a e)).log = e.log := by
          rw [unloadEls_log]
          rfl
        have hE2nx : (unloadEls el.toRemove (setLoaded a e)).nextEid = e.nextEid := by
          rw [unloadEls_nextEid]
          rfl
        have hE2eids : (unloadEls el.toRemove (setLoaded a e)).elems.map
            (fun x => x.eid) = e.elems.map (fun x => x.eid) := by
          rw [eids_unloadEls, eids_setLoaded]
        have hE2nodup : ((unloadEls el.toRemove (setLoaded a e)).elems.map
            (fun x => x.eid)).Nodup := by
          rw [hE2eids]
          exact hBnodup
        have hE2bound : ∀ x ∈ (unloadEls el.toRemove (setLoaded a e)).elems,
            x.eid < e.nextEid := by
          intro x hx
          obtain ⟨x0, hx0, he1, -, -⟩ := mem_unload_set hx
          rw [he1]
          exact hBbound x0 hx0
        have hE2ld : ∀ x ∈ (unloadEls el.toRemove (setLoaded a e)).elems,
            x.loaded = true := by
          intro x hx
          obtain ⟨x0, hx0, -, -, he3⟩ := mem_unload_set hx
          by_cases hc : x0.eid = a
          · rw [he3, if_pos hc]
          · rw [he3, if_neg hc]
            exact hBothers x0 hx0 hc
        have hHF : ∀ r it', (q.drop (p + 1)).get? r = some it' → it'.url ≠ "" →
            getElementById (unloadEls el.toRemove (setLoaded a e))
              (idOf it'.url) = none ∧
            channel (unloadEls el.toRemove (setLoaded a e)) (idOf it'.url) = [] ∧
            it'.url ∉ (unloadEls el.toRemove (setLoaded a e)).cache := by
          intro r it' hr hu
          rw [get?_drop'] at hr
          have hf := hBF (p + 1 + r) it' hr (by omega) hu
          refine ⟨hE2getnone _ hf.1, channel_unload_set _ _ _ _ hf.2.1, ?_⟩
          rw [hE2cache]
          exact hf.2.2
        have hdisp := dispatch_run (q.drop (p + 1)) q (p + 1) d (f + 1)
          (unloadEls el.toRemove (setLoaded a e)) rfl
          (by have := List.length_drop (p + 1) q; omega) hHF
        rcases hfu : firstUrl (q.drop (p + 1)) with - | ⟨r', itB⟩
        · -- the queue finishes inside this completion
          rw [hfu] at hdisp
          rw [hdisp]
          right
          constructor
          · rw [clearChan_log]
            show (unloadEls el.toRemove (setLoaded a e)).log ++ _ = _
            rw [hE2log, hBlog,
              show flatEvs q = flatEvs (q.take (p + 1)) ++ flatEvs (q.drop (p + 1)) from by
                rw [← flatEvs_append, List.take_append_drop],
              List.append_assoc]
          · intro x hx
            exact hE2ld x hx
        · -- the executor blocks on the next url item
          rw [hfu] at hdisp
          obtain ⟨⟨rem, helems, hmates⟩, hnx, hlog, hcache, hcs, hco⟩ := hdisp
          rw [hE2nx] at helems hnx
          left
          obtain ⟨hgetB', hurlB⟩ := firstUrl_some hfu
          have hgetB : q.get? (p + 1 + r') = some itB := by
            rw [← get?_drop']
            exact hgetB'
          have hne_it : it.url ≠ itB.url := pairwise_get? hP hB1 hgetB (by omega) hB1u hurlB
          have hid_ne : idOf itB.url ≠ el.id := by
            rw [hBid]
            exact fun hc => hne_it ((idOf_inj hc).symm)
          have hfreshE2 : ∀ x ∈ (unloadEls el.toRemove (setLoaded a e)).elems,
              x.eid ≠ e.nextEid :=
            fun x hx => Nat.ne_of_lt (hE2bound x hx)
          refine ⟨p + 1 + r', itB, e.nextEid,
            ⟨e.nextEid, idOf itB.url, itB.name, false, true, rem⟩,
            hgetB, hurlB, ?_, ?_, rfl, rfl, ?_, ?_, ?_, ?_, ?_, ?_⟩
          · -- the log
            rw [show p + 1 + r' + 1 = (p + 1) + (r' + 1) from by omega,
              List.take_add, flatEvs_append, clearChan_log, hlog, hE2log, hBlog]
          · -- the pending element
            rw [lookupElem_clearChan]
            unfold lookupElem
            rw [helems]
            exact find?_eid_append_fresh _ _ e.nextEid rfl hfreshE2
          · -- its channel
            rw [channel_clearChan_ne _ _ _ hid_ne]
            exact hcs
          · -- the captured mates are not shadowing the pending id
            intro x hx hin
            rw [clearChan_elems, helems] at hx
            rcases List.mem_append.mp hx with hx2 | hx2
            · obtain ⟨y, hy, hyeid, hyat⟩ := hmates _ hin
              have hyx : y = x := eid_unique hE2nodup hy hx2 hyeid
              have hE2none : getElementById (unloadEls el.toRemove (setLoaded a e))
                  (idOf itB.url) = none := (hHF r' itB hgetB' hurlB).1
              rw [← hyx]
              exact docFind_eq_none hE2none y hy hyat
            · rw [List.mem_singleton.mp hx2] at hin
              obtain ⟨y, hy, hyeid, -⟩ := hmates _ hin
              exact absurd hyeid (hfreshE2 y hy)
          · -- everything else is loaded
            intro x hx hne
            rw [clearChan_elems, helems] at hx
            rcases List.mem_append.mp hx with hx2 | hx2
            · exact hE2ld x hx2
            · rw [List.mem_singleton.mp hx2] at hne
              exact absurd rfl hne
          · -- identities stay distinct
            rw [clearChan_elems, helems, List.map_append, hE2eids]
            rw [List.nodup_append]
            refine ⟨hBnodup, List.nodup_singleton _, ?_⟩
            intro v hv hv2
            rw [List.mem_singleton.mp hv2] at hv
            obtain ⟨z, hz, hze⟩ := List.mem_map.mp hv
            exact absurd hze (Nat.ne_of_lt (hBbound z hz))
          · -- identities stay bounded
            intro x hx
            rw [clearChan_elems, helems] at hx
            show x.eid < (clearChan el.id _).nextEid
            rw [clearChan_nextEid, hnx]
            rcases List.mem_append.mp hx with hx2 | hx2
            · exact Nat.lt_succ_of_lt (hE2bound x hx2)
            · rw [List.mem_singleton.mp hx2]
              exact Nat.lt_succ_self _
          · -- future url items stay untouched
            intro k it'' hk hpk hu''
            have hne1 : it.url ≠ it''.url := pairwise_get? hP hB1 hk (by omega) hB1u hu''
            have hne2 : itB.url ≠ it''.url :=
              pairwise_get? hP hgetB hk (by omega) hurlB hu''
            have hfE2 := hBF k it'' hk (by omega) hu''
            refine ⟨?_, ?_, ?_⟩
            · show docFind (clearChan el.id _).elems _ = none
              rw [clearChan_elems, helems, docFind_append_single,
                if_neg (by
                  simp only [Bool.and_eq_true, beq_iff_eq]
                  intro hc
                  exact hne2 (idOf_inj hc.2))]
              exact hE2getnone _ hfE2.1
            · rw [channel_clearChan_ne _ _ _ (by
                  rw [hBid]
                  exact fun hc => hne1 ((idOf_inj hc).symm))]
              rw [hco _ (fun hc => hne2 ((idOf_inj hc).symm))]
              exact channel_unload_set _ _ _ _ hfE2.2.1
            · show it''.url ∉ (clearChan el.id _).cache
              rw [clearChan_cache, hcache]
              intro hc
              rcases List.mem_cons.mp hc with hc1 | hc2
              · exact hne2 hc1.symm
              · rw [hE2cache] at hc2
                exact hfE2.2.2 hc2

/-- The example queue of the claim: an external script "a", an inline
script "x", then an external script "b". -/
def exq : List Item := [⟨"a", "", ""⟩, ⟨"", "x", ""⟩, ⟨"b", "", ""⟩]

/-- C2: `execute` dispatches the parsed queue strictly in order. After
`execute` and any schedule of completion events, the observable log is
exactly the dispatch events of some prefix `q.take m` of the queue — so
item N+1 is never dispatched before item N completes — or the dispatch
events of the whole queue followed by the done callback; the done
callback's event never occurs among any items' dispatch events, so it
fires only after the last item completes; every take-prefix of the event
list is a prefix of the full event list; and on the concrete queue
[{url:"a"}, {text:"x"}, {url:"b"}] the staged logs are [fetch a], then
[fetch a, eval x, fetch b], then the same followed by the done event. -/
theorem C2_execute_serialized (orig parsed : String) (q : List Item) (n : Nat)
    (sched : List Nat) (f : Nat)
    (hP : urlsDistinct q) (hfuel : 2 * q.length + 2 ≤ f + 1) :
    ((∃ m, m ≤ q.length ∧
        (sched.foldl (fun e a => run (f + 3) (Act.handle a) e)
          (execute (f + 1) ⟨orig, parsed, q⟩ (some n) env0)).log
          = flatEvs (q.take m)) ∨
      (sched.foldl (fun e a => run (f + 3) (Act.handle a) e)
          (execute (f + 1) ⟨orig, parsed, q⟩ (some n) env0)).log
        = flatEvs q ++ [Ev.cbRun n]) ∧
    (∀ l : List Item, Ev.cbRun n ∉ flatEvs l) ∧
    (∀ m, ∃ t, flatEvs (q.take m) ++ t = flatEvs q) ∧
    flatEvs exq = [Ev.fetch "a", Ev.evalText "x", Ev.fetch "b"] ∧
    (execute 8 ⟨orig, parsed, exq⟩ (some n) env0).log = [Ev.fetch "a"] ∧
    (run 10 (Act.handle 0) (execute 8 ⟨orig, parsed, exq⟩ (some n) env0)).log
      = [Ev.fetch "a", Ev.evalText "x", Ev.fetch "b"] ∧
    (run 10 (Act.handle 1)
        (run 10 (Act.handle 0) (execute 8 ⟨orig, parsed, exq⟩ (some n) env0))).log
      = [Ev.fetch "a", Ev.evalText "x", Ev.fetch "b"] ++ [Ev.cbRun n] := by
  refine ⟨?_, fun l => cbRun_not_mem_flatEvs n l,
    fun m => ⟨flatEvs (q.drop m), by rw [← flatEvs_append, List.take_append_drop]⟩,
    rfl, rfl, rfl, rfl⟩
  have key : ∀ (s : List Nat) (e : Env), ExecInv q (some n) e →
      ExecInv q (some n) (s.foldl (fun e a => run (f + 3) (Act.handle a) e) e) := by
    intro s
    induction s with
    | nil => exact fun e h => h
    | cons a s ih => exact fun e h => ih _ (exec_step q (some n) f e a hP hfuel h)
  rcases key sched _ (exec_init q orig parsed (some n) (f + 1) hP hfuel) with
    ⟨p, it, pend, pendEl, hB1, hB1u, hBlog, -⟩ | ⟨hQlog, -⟩
  · left
    refine ⟨p + 1, ?_, hBlog⟩
    obtain ⟨hp, -⟩ := List.get?_eq_some.mp hB1
    omega
  · right
    exact hQlog

/-- C2's general statement instantiated at the claim's concrete queue,
with both completions delivered in order. -/
theorem C2_witness :
    urlsDistinct exq ∧ 2 * exq.length + 2 ≤ 7 + 1 ∧
    (((∃ m, m ≤ exq.length ∧
        ([0, 1].foldl (fun e a => run (7 + 3) (Act.handle a) e)
          (execute (7 + 1) ⟨"o", "p", exq⟩ (some 9) env0)).log
          = flatEvs (exq.take m)) ∨
      ([0, 1].foldl (fun e a => run (7 + 3) (Act.handle a) e)
          (execute (7 + 1) ⟨"o", "p", exq⟩ (some 9) env0)).log
        = flatEvs exq ++ [Ev.cbRun 9]) ∧
    (∀ l : List Item, Ev.cbRun 9 ∉ flatEvs l) ∧
    (∀ m, ∃ t, flatEvs (exq.take m) ++ t = flatEvs exq) ∧
    flatEvs exq = [Ev.fetch "a", Ev.evalText "x", Ev.fetch "b"] ∧
    (execute 8 ⟨"o", "p", exq⟩ (some 9) env0).log = [Ev.fetch "a"] ∧
    (run 10 (Act.handle 0) (execute 8 ⟨"o", "p", exq⟩ (some 9) env0)).log
      = [Ev.fetch "a", Ev.evalText "x", Ev.fetch "b"] ∧
    (run 10 (Act.handle 1)
        (run 10 (Act.handle 0) (execute 8 ⟨"o", "p", exq⟩ (some 9) env0))).log
      = [Ev.fetch "a", Ev.evalText "x", Ev.fetch "b"] ++ [Ev.cbRun 9]) :=
  ⟨by decide, by decide,
    C2_execute_serialized "o" "p" exq 9 [0, 1] 7 (by decide) (by decide)⟩
